import Mathlib

/-!
The program gitlab-gogot: the request handler, its prefix walk and its helpers.

A shallow embedding of `main.go`.  Go strings are modelled as lists of
characters (`Str`); every byte the code inspects (`/`, `.`, `%`, digits) is
ASCII, so the byte-wise library routines behave the same on code points.

Library routines the handler calls (`strings.TrimLeft`, `path.Dir`,
`path.Clean`, `strconv.Atoi`, the `net/http` response writer and the
`fmt` verbs used by the payload) are modelled after the Go standard library.
The backend client, the URL parser and the ARC cache are parameters.
-/

namespace Gogot

/-- Go strings. -/
abbrev Str := List Char

/-! ## `strings` and `path` -/

/-- The routine `strings.TrimLeft(s, cutset)`: drop the leading characters that occur in `cutset`. -/
def TrimLeft (s cutset : Str) : Str :=
  s.dropWhile (fun c => cutset.contains c)

/-- Number of `/` characters of a string. -/
def slashes (s : Str) : Nat := s.count '/'

/-- The routine `strings.LastIndex(s, "/")`, `none` standing for `-1`. -/
def LastIndex : Str → Option Nat
  | [] => none
  | c :: rest =>
    match LastIndex rest with
    | some j => some (j + 1)
    | none => if c = '/' then some 0 else none

/-- The routine `path.Split`: `i := LastIndex(path, "/"); return path[:i+1], path[i+1:]`. -/
def Split (path : Str) : Str × Str :=
  match LastIndex path with
  | some i => (path.take (i + 1), path.drop (i + 1))
  | none => ([], path)

/-- The backtracking loop of `path.Clean`:
`for out.w > dotdot && out.index(out.w) != '/' { out.w-- }`, on the write index. -/
def backtrack (buf : Str) (dotdot : Nat) : Nat → Nat
  | 0 => 0
  | w + 1 =>
    if w + 1 > dotdot ∧ buf.getD (w + 1) '/' ≠ '/' then backtrack buf dotdot w else w + 1

/-- The main loop of `path.Clean` for a path that is read from `rest`; `out` is the
logical content of the output buffer (its first `out.w` bytes) and `dotdot` the
index where `..` must stop.  One unit of fuel is spent per loop iteration. -/
def cleanLoop (rooted : Bool) : Nat → Str → Str → Nat → Str
  | 0, _, out, _ => out
  | _ + 1, [], out, _ => out
  | fuel + 1, c :: rest, out, dotdot =>
    if c = '/' then
      -- empty path element
      cleanLoop rooted fuel rest out dotdot
    else if c = '.' ∧ (rest = [] ∨ rest.head? = some '/') then
      -- . element
      cleanLoop rooted fuel rest out dotdot
    else if c = '.' ∧ rest.head? = some '.' ∧
        (rest.tail = [] ∨ rest.tail.head? = some '/') then
      -- .. element: remove to last /
      if out.length > dotdot then
        -- can backtrack
        cleanLoop rooted fuel rest.tail (out.take (backtrack out dotdot (out.length - 1))) dotdot
      else if ¬ rooted then
        -- cannot backtrack, but not rooted, so append .. element
        let out1 := if out.length > 0 then out ++ ['/'] else out
        let out2 := out1 ++ ['.', '.']
        cleanLoop rooted fuel rest.tail out2 out2.length
      else
        cleanLoop rooted fuel rest.tail out dotdot
    else
      -- real path element: add slash if needed, then copy the element
      let out1 :=
        if (rooted ∧ out.length ≠ 1) ∨ (¬ rooted ∧ out.length ≠ 0) then out ++ ['/'] else out
      cleanLoop rooted fuel ((c :: rest).dropWhile (· ≠ '/'))
        (out1 ++ (c :: rest).takeWhile (· ≠ '/')) dotdot

/-- The routine `path.Clean`. -/
def Clean (path : Str) : Str :=
  if path = [] then ['.']
  else
    let rooted := path.head? = some '/'
    let out := if rooted then
        cleanLoop true (path.length + 1) path.tail ['/'] 1
      else
        cleanLoop false (path.length + 1) path [] 0
    if out.length = 0 then ['.'] else out

/-- The routine `path.Dir`: `dir, _ := Split(path); return Clean(dir)`. -/
def Dir (path : Str) : Str := Clean (Split path).1

/-- Number of path elements (maximal runs without `/`) of a string; `inElem` tells
whether the position is inside an element that already counts. -/
def elems : Bool → Str → Nat
  | _, [] => 0
  | inElem, c :: rest =>
    if c = '/' then elems false rest
    else (if inElem then 0 else 1) + elems true rest

/-- Number of components of an output buffer of `Clean`: one more than its slashes,
none for the empty buffer. -/
def comps (out : Str) : Nat := slashes out + (if out = [] then 0 else 1)

/-! ## `strconv` and the environment -/

/-- The two errors of `strconv`: `ErrSyntax` and `ErrRange`. -/
inductive NumError where
  | ErrSyntax
  | ErrRange
deriving DecidableEq, Repr

/-- Decimal value of a string of digits, `none` when some byte is not a digit
(the loop `ch -= '0'; if ch > 9 { syntax error }; n = n*10 + ch`). -/
def parseDigits : Str → Nat → Option Nat
  | [], n => some n
  | ch :: rest, n =>
    if 48 ≤ ch.toNat ∧ ch.toNat ≤ 57 then parseDigits rest (n * 10 + (ch.toNat - 48)) else none

/-- The routine `strconv.Atoi` for a 64-bit `int`: the value and the error (`none` for `nil`).
A syntax error yields the value 0, a range error the nearest bound. -/
def Atoi (s : Str) : Int × Option NumError :=
  match s with
  | [] => (0, some .ErrSyntax)
  | c :: rest =>
    let neg := decide (c = '-')
    let digits := if c = '-' ∨ c = '+' then rest else s
    if digits = [] then (0, some .ErrSyntax)
    else
      match parseDigits digits 0 with
      | none => (0, some .ErrSyntax)
      | some un =>
        if ¬ neg ∧ un ≥ 2 ^ 63 then ((2 : Int) ^ 63 - 1, some .ErrRange)
        else if neg ∧ un > 2 ^ 63 then (-(2 : Int) ^ 63, some .ErrRange)
        else if neg then (-(un : Int), none)
        else ((un : Int), none)

/-- The process environment: `none` for a variable that is not set. -/
abbrev Env := Str → Option Str

/-- The routine `os.Getenv`: the value, or the empty string when the variable is not set. -/
def Getenv (env : Env) (name : Str) : Str := (env name).getD []

/-- The function `envString` of `main.go`. -/
def envString (env : Env) (name defaultValue : Str) : Str :=
  let tmp := Getenv env name
  if tmp ≠ [] then tmp else defaultValue

/-- The function `envInt` of `main.go`:
`if tmp := os.Getenv(name); tmp != "" { if v, err := strconv.Atoi(tmp); err != nil { return v } }; return defaultValue`. -/
def envInt (env : Env) (name : Str) (defaultValue : Int) : Int :=
  let tmp := Getenv env name
  if tmp ≠ [] then
    let (v, err) := Atoi tmp
    if err ≠ none then v else defaultValue
  else defaultValue

/-- The cache size `main` passes to `flag.Int` as the default of `-cachesize`. -/
def cacheSizeDefault (env : Env) : Int := envInt env "GG_CACHE_SIZE".toList 512

/-! ## The backend client -/

/-- The fields of `gitlab.Project` the program reads. -/
structure Project where
  PathWithNamespace : Str
  HTTPURLToRepo : Str
  WebURL : Str
deriving DecidableEq, Repr

/-- The errors `GetProject` returns: a `*gitlab.ErrorResponse` (the backend answered
with a status outside 200, 201, 202, 204, 304; a missing project is such a response with
status code 404), carrying `Response.Status`, `Response.StatusCode` and the text of
`Error()`; or any other error (transport, decoding), carrying the text of `Error()`. -/
inductive GitlabError where
  | ErrorResponse (Status : Str) (StatusCode : Nat) (text : Str)
  | other (text : Str)
deriving DecidableEq, Repr

/-- The method `err.Error()`. -/
def GitlabError.Error : GitlabError → Str
  | .ErrorResponse _ _ text => text
  | .other text => text

/-- The call `c.Projects.GetProject(rpath, ...)` of a client built with a token:
a function of the token and the path. -/
abbrev GetProject := Str → Str → Except GitlabError Project

/-! ## `net/http` response writing -/

/-- The state of the `http.ResponseWriter` of the server: whether the header is written,
the status sent, and `body`, the data the writes of the handler have handed to the
connection so far.  The connection sends them as the body of the response, except to a
HEAD request (see `bodySent`). -/
structure ResponseWriter where
  wroteHeader : Bool
  status : Nat
  body : Str
deriving DecidableEq, Repr

/-- A response nothing was written to. -/
def newResponse : ResponseWriter := { wroteHeader := false, status := 0, body := [] }

/-- The method `WriteHeader` of the server response: the first call fixes the status, a later call
is superfluous and ignored.  (The codes are those of responses the backend client
received; the real method refuses a code outside 100..999, which the model keeps.) -/
def ResponseWriter.WriteHeader (w : ResponseWriter) (code : Nat) : ResponseWriter :=
  if w.wroteHeader then w else { w with wroteHeader := true, status := code }

/-- The constant `http.MethodHead`. -/
def MethodHead : Str := "HEAD".toList

/-- The routine `bodyAllowedForStatus` of `net/http`: a response with a status 1xx, 204
or 304 has no body. -/
def bodyAllowedForStatus (status : Nat) : Bool :=
  if 100 ≤ status ∧ status ≤ 199 then false
  else if status = 204 then false
  else if status = 304 then false
  else true

/-- The method `Write` of the server response: an implicit `WriteHeader(200)` when no header is
written yet; then the data are refused (`ErrBodyNotAllowed`) when the status allows no
body, and handed to the connection otherwise. -/
def ResponseWriter.Write (w : ResponseWriter) (data : Str) : ResponseWriter :=
  let w1 := if w.wroteHeader then w else w.WriteHeader 200
  if bodyAllowedForStatus w1.status then { w1 with body := w1.body ++ data } else w1

/-- The body the server sends for a request of the given method: the chunk writer of the
connection eats the writes of a HEAD request (`cw.res.req.Method == "HEAD"`), so its
response has no body; for every other method the body is the data written. -/
def bodySent (method : Str) (w : ResponseWriter) : Str :=
  if method = MethodHead then [] else w.body

/-- The type `statusRecorder` of `main.go`: the embedded writer and the recorded status. -/
structure statusRecorder where
  ResponseWriter : ResponseWriter
  status : Nat
deriving DecidableEq, Repr

/-- The method `(*statusRecorder).WriteHeader`. -/
def statusRecorder.WriteHeader (sr : statusRecorder) (code : Nat) : statusRecorder :=
  { ResponseWriter := sr.ResponseWriter.WriteHeader code, status := code }

/-- The method `(*statusRecorder).getStatus`. -/
def statusRecorder.getStatus (sr : statusRecorder) : Nat :=
  if sr.status = 0 then 200 else sr.status

/-- The method `Write` of a `statusRecorder`: the promoted method of the embedded writer. -/
def statusRecorder.Write (sr : statusRecorder) (data : Str) : statusRecorder :=
  { sr with ResponseWriter := sr.ResponseWriter.Write data }

/-- The recorder the handler starts with: `&statusRecorder{ResponseWriter: w}`. -/
def newRecorder : statusRecorder := { ResponseWriter := newResponse, status := 0 }

/-- The call `fmt.Fprintln(w, s)`. -/
def Fprintln (w : statusRecorder) (s : Str) : statusRecorder := w.Write (s ++ ['\n'])

/-- The routine `http.Error(w, error, code)`: `w.WriteHeader(code); fmt.Fprintln(w, error)`. -/
def Error (w : statusRecorder) (error : Str) (code : Nat) : statusRecorder :=
  Fprintln (w.WriteHeader code) error

/-- The routine `http.NotFound`. -/
def NotFound (w : statusRecorder) : statusRecorder :=
  Error w "404 page not found".toList 404

/-- The verbs of `fmt.Sprintf` the payload uses: `%[n]s` with a one-digit argument index
inserts the n-th string argument; every other character is copied. -/
def Sprintf : Str → List Str → Str
  | [], _ => []
  | '%' :: '[' :: d :: ']' :: 's' :: rest, a =>
    (a.getD (d.toNat - 49) "%!s(BADINDEX)".toList) ++ Sprintf rest a
  | c :: rest, a => c :: Sprintf rest a

/-- The format string of `sendResponse`. -/
def payloadFormat : Str :=
  ("<html><head>\n" ++
   "\t<meta name=\"go-import\" content=\"%[1]s/%[2]s git %[3]s\" />\n" ++
   "\t<meta name=\"go-source\" content=\"%[1]s/%[2]s _ %[4]s/tree/master\x7b/dir\x7d %[4]s/tree/master\x7b/dir\x7d/\x7bfile\x7d#L\x7bline\x7d\" />\n" ++
   "</head></html>\n").toList

/-- The part of `url.URL` the program reads. -/
structure URL where
  Host : Str
deriving DecidableEq, Repr

/-- The routine `url.Parse`, a parameter of the model: the parsed URL or the text of the error. -/
abbrev UrlParse := Str → Except Str URL

/-- The function `sendResponse` of `main.go`. -/
def sendResponse (urlParse : UrlParse) (w : statusRecorder) (proj : Option Project) :
    statusRecorder :=
  match proj with
  | none => NotFound w
  | some proj =>
    match urlParse proj.HTTPURLToRepo with
    | .error err => Error w err 500
    | .ok u =>
      w.Write (Sprintf payloadFormat
        [u.Host, proj.PathWithNamespace, proj.HTTPURLToRepo, proj.WebURL])

/-! ## The cache -/

/-- The operations of the ARC cache (`lru.ARCCache`) the handler uses, over an abstract
cache state `C`: `Get`, `Add`, `Remove`, the configured `size`, and `Peek`, the value
held for a key (read without touching the state). -/
structure ARCCache (C : Type) where
  Get : C → Str → Option Project × C
  Add : C → Str → Project → C
  Remove : C → Str → C
  size : C → Nat
  Peek : C → Str → Option Project

/-- The contract of the cache operations: `Get` returns the held value and changes no
held value; `Add` to a cache of positive size makes the key hold the value and creates no
other entry (it may evict); `Remove` drops the key and nothing else; the size is fixed. -/
structure ARCCache.Lawful {C : Type} (K : ARCCache C) : Prop where
  get_val : ∀ c k, (K.Get c k).1 = K.Peek c k
  get_peek : ∀ c k k2, K.Peek (K.Get c k).2 k2 = K.Peek c k2
  get_size : ∀ c k, K.size (K.Get c k).2 = K.size c
  add_same : ∀ c k v, 0 < K.size c → K.Peek (K.Add c k v) k = some v
  add_other : ∀ c k v k2 v2, k2 ≠ k → K.Peek (K.Add c k v) k2 = some v2 → K.Peek c k2 = some v2
  add_size : ∀ c k v, K.size (K.Add c k v) = K.size c
  remove_same : ∀ c k, K.Peek (K.Remove c k) k = none
  remove_other : ∀ c k k2, k2 ≠ k → K.Peek (K.Remove c k) k2 = K.Peek c k2
  remove_size : ∀ c k, K.size (K.Remove c k) = K.size c

/-! ## The request handler -/

/-- The parts of `*http.Request` the handler reads: the method, `r.URL.Path`, and
`r.Header.Get("Private-Token")` (empty when the header is absent). -/
structure Request where
  Method : Str
  Path : Str
  PrivateToken : Str
deriving DecidableEq, Repr

/-- The constant `http.MethodDelete`. -/
def MethodDelete : Str := "DELETE".toList

/-- What one run of the handler leaves behind: the response, the cache, the backend
calls it made in order (path and token), the value of `firstError` for the log line, and
the record handed to `sendResponse`, if any. -/
structure Outcome (C : Type) where
  w : statusRecorder
  cache : C
  calls : List (Str × Str)
  firstError : Option GitlabError
  proj : Option Project

/-- The `for` loop of the handler, at candidate `rpath` with the current `firstError`
and the calls made so far; one unit of fuel per iteration. -/
def walk {C : Type} (K : ARCCache C) (urlParse : UrlParse) (getProject : GetProject)
    (r : Request) (w : statusRecorder) (cache : C) :
    Nat → Str → Option GitlabError → List (Str × Str) → Option (Outcome C)
  | 0, _, _, _ => none
  | fuel + 1, rpath, firstError, calls =>
    let calls := calls ++ [(rpath, r.PrivateToken)]
    match getProject r.PrivateToken rpath with
    | .ok proj =>
      some { w := sendResponse urlParse w (some proj), cache := K.Add cache r.Path proj,
             calls := calls, firstError := firstError, proj := some proj }
    | .error err =>
      -- Keep the first error if there is one
      let firstError := if firstError = none then some err else firstError
      -- Step back a directory and try again if we are not in the root
      let rpath := Dir rpath
      if rpath = ['.'] then
        let w1 := match firstError with
          | some (.ErrorResponse Status StatusCode _) => Error w Status StatusCode
          | _ => w
        if firstError ≠ none then
          some { w := Error w1 err.Error 500, cache := cache, calls := calls,
                 firstError := firstError, proj := none }
        else
          some { w := NotFound w1, cache := cache, calls := calls,
                 firstError := firstError, proj := none }
      else walk K urlParse getProject r w cache fuel rpath firstError calls

/-- The request handler of `main.go`. -/
def handler {C : Type} (K : ARCCache C) (urlParse : UrlParse) (getProject : GetProject)
    (fuel : Nat) (cache : C) (r : Request) : Option (Outcome C) :=
  let w := newRecorder
  let isDelete := decide (r.Method = MethodDelete)
  match K.Get cache r.Path with
  | (some val, cache) =>
    if isDelete then
      some { w := Fprintln w "OK".toList, cache := K.Remove cache r.Path, calls := [],
             firstError := none, proj := none }
    else
      some { w := sendResponse urlParse w (some val), cache := cache, calls := [],
             firstError := none, proj := some val }
  | (none, cache) =>
    if isDelete then
      some { w := NotFound w, cache := cache, calls := [], firstError := none, proj := none }
    else
      walk K urlParse getProject r w cache fuel (TrimLeft r.Path ['/']) none []

/-- What the first `if` of the failure rendering writes for the retained error:
`http.Error(w, err.Response.Status, err.Response.StatusCode)` for a `*gitlab.ErrorResponse`,
nothing otherwise. -/
def writeErrorResponse (w : statusRecorder) : GitlabError → statusRecorder
  | .ErrorResponse Status StatusCode _ => Error w Status StatusCode
  | .other _ => w

/-- The candidates the loop tries from `rpath` when every lookup fails: `rpath`,
`Dir rpath`, ... up to the first one whose `Dir` is `.`. -/
def candidates : Nat → Str → List Str
  | 0, _ => []
  | fuel + 1, rpath => rpath :: (if Dir rpath = ['.'] then [] else candidates fuel (Dir rpath))

/-- The prefixes of a normalized request path the handler can query. -/
def prefixes (rpath : Str) : List Str := candidates (slashes rpath + 1) rpath

/-- The path `s1/.../sn` of a list of segments. -/
def joinPath : List Str → Str
  | [] => []
  | [s] => s
  | s :: rest => s ++ '/' :: joinPath rest

/-- The prefixes `s1/.../sj` of a path of segments for `j` from `k + d` down to `k`. -/
def prefixesDown (segs : List Str) (k : Nat) : Nat → List Str
  | 0 => [joinPath (segs.take k)]
  | d + 1 => joinPath (segs.take (k + (d + 1))) :: prefixesDown segs k d

/-- A plain segment: not empty, without `/`, and neither `.` nor `..`. -/
def Plain (s : Str) : Prop := s ≠ [] ∧ '/' ∉ s ∧ s ≠ ['.'] ∧ s ≠ ['.', '.']

instance (s : Str) : Decidable (Plain s) := by unfold Plain; infer_instance

/-! ## Concrete instances for evaluation -/

/-- A bounded first-in-first-out cache: the configured size and the entries, newest first. -/
structure FifoCache where
  size : Nat
  entries : List (Str × Project)
deriving DecidableEq, Repr

/-- An instance of the cache operations: `Add` replaces the entry of the key, puts the
new one in front and keeps the newest `size` entries. -/
def fifoCache : ARCCache FifoCache where
  Get := fun c k => (c.entries.lookup k, c)
  Add := fun c k v =>
    { c with entries := ((k, v) :: c.entries.filter (fun e => e.1 ≠ k)).take c.size }
  Remove := fun c k => { c with entries := c.entries.filter (fun e => e.1 ≠ k) }
  size := fun c => c.size
  Peek := fun c k => c.entries.lookup k

/-- An empty cache of the default size. -/
def emptyCache : FifoCache := { size := 512, entries := [] }

/-- A stand-in for `url.Parse` on clone URLs: a string with an ASCII control character
or a leading colon is rejected (as `url.Parse` does: invalid control character, missing
protocol scheme); otherwise the host is what stands between `//` and the next `/`,
after any `userinfo@`. -/
def parseURL : UrlParse := fun rawurl =>
  if rawurl.any (fun c => c.toNat < 32 ∨ c.toNat = 127) then
    .error "net/url: invalid control character in URL".toList
  else if rawurl.head? = some ':' then
    .error "missing protocol scheme".toList
  else
    let rest := (rawurl.dropWhile (· ≠ ':')).drop 1
    if rest.take 2 = ['/', '/'] then
      let authority := (rest.drop 2).takeWhile (· ≠ '/')
      let host := if '@' ∈ authority then
          ((authority.reverse.takeWhile (· ≠ '@')).reverse) else authority
      .ok { Host := host }
    else .ok { Host := [] }

/-- The record of the project `foo/bar`. -/
def fooBar : Project :=
  { PathWithNamespace := "foo/bar".toList,
    HTTPURLToRepo := "https://gitlab.com/foo/bar.git".toList,
    WebURL := "https://gitlab.com/foo/bar".toList }

/-- The answer of the backend for a project it does not have. -/
def notFound (path : Str) : GitlabError :=
  .ErrorResponse "404 Not Found".toList 404
    ("GET https://gitlab.com/api/v4/projects/".toList ++ path ++
      ": 404 \x7bmessage: 404 Project Not Found\x7d".toList)

/-- A backend that has the project `foo/bar` only. -/
def backendFooBar : GetProject := fun _ path =>
  if path = "foo/bar".toList then .ok fooBar else .error (notFound path)

/-- A backend without any project. -/
def backendEmpty : GetProject := fun _ path => .error (notFound path)

/-- A backend that fails on every path: with a transport error on a path with a `/`,
with a `403` error response on a single segment. -/
def backendDown : GetProject := fun _ path =>
  .error (if '/' ∈ path then .other "dial tcp: i/o timeout".toList
    else .ErrorResponse "403 Forbidden".toList 403 "GET projects: 403 Forbidden".toList)

/-- A read request without token. -/
def getRequest (path : String) : Request :=
  { Method := "GET".toList, Path := path.toList, PrivateToken := [] }

/-- A record whose clone URL does not parse (it has no scheme before the colon). -/
def badRecord : Project :=
  { PathWithNamespace := "a/b".toList,
    HTTPURLToRepo := "://gitlab.com/a/b.git".toList,
    WebURL := "https://gitlab.com/a/b".toList }

/-- A backend that has the project `a/b` only, with a clone URL that does not parse. -/
def backendBadURL : GetProject := fun _ path =>
  if path = "a/b".toList then .ok badRecord else .error (notFound path)

/-- An environment in which only `GG_CACHE_SIZE` is set, to the given text. -/
def envCacheSize (value : String) : Env := fun name =>
  if name = "GG_CACHE_SIZE".toList then some value.toList else none

/-! ## Facts about `path.Split`, `path.Clean` and `path.Dir` -/

theorem LastIndex_none {p : Str} (h : '/' ∉ p) : LastIndex p = none := by
  induction p with
  | nil => rfl
  | cons c rest ih =>
    simp only [List.mem_cons, not_or] at h
    have hc : c ≠ '/' := fun e => h.1 e.symm
    simp [LastIndex, ih h.2, hc]

theorem LastIndex_append (a b : Str) (h : '/' ∉ b) :
    LastIndex (a ++ '/' :: b) = some a.length := by
  induction a with
  | nil => simp [LastIndex, LastIndex_none h]
  | cons c rest ih => simp [LastIndex, ih]

theorem Split_append (a b : Str) (h : '/' ∉ b) :
    Split (a ++ '/' :: b) = (a ++ ['/'], b) := by
  simp [Split, LastIndex_append a b h, List.take_append_eq_append_take,
    List.drop_append_eq_append_drop]

theorem Split_noslash {p : Str} (h : '/' ∉ p) : Split p = ([], p) := by
  simp [Split, LastIndex_none h]

theorem exists_last_slash {p : Str} (h : '/' ∈ p) :
    ∃ a b, p = a ++ '/' :: b ∧ '/' ∉ b := by
  induction p with
  | nil => simp at h
  | cons c rest ih =>
    by_cases hr : '/' ∈ rest
    · obtain ⟨a, b, hab, hb⟩ := ih hr
      exact ⟨c :: a, b, by simp [hab], hb⟩
    · have hc : c = '/' := by
        rcases List.mem_cons.1 h with e | e
        · exact e.symm
        · exact absurd e hr
      exact ⟨[], rest, by simp [hc], hr⟩

theorem slashes_append (a b : Str) : slashes (a ++ b) = slashes a + slashes b := by
  simp [slashes]

theorem slashes_noslash {b : Str} (h : '/' ∉ b) : slashes b = 0 := by
  simpa [slashes] using List.count_eq_zero_of_not_mem h

theorem slashes_take_le (k : Nat) (out : Str) : slashes (out.take k) ≤ slashes out := by
  unfold slashes
  exact (List.take_sublist k out).count_le _

theorem comps_take_le (k : Nat) (out : Str) : comps (out.take k) ≤ comps out := by
  unfold comps
  have h := slashes_take_le k out
  by_cases ho : out = []
  · subst ho; simp
  · simp only [ho, if_false]
    split <;> omega

theorem elems_false_le_true (s : Str) : elems false s ≤ elems true s + 1 := by
  cases s with
  | nil => simp [elems]
  | cons c rest =>
    by_cases hc : c = '/' <;> simp [elems, hc]
    omega

theorem elems_dropWhile (s : Str) :
    elems false (s.dropWhile (· ≠ '/')) = elems true s := by
  induction s with
  | nil => rfl
  | cons c rest ih =>
    by_cases hc : c = '/'
    · subst hc; simp [List.dropWhile, elems]
    · have e : elems true (c :: rest) = elems true rest := by simp [elems, hc]
      have d : (c :: rest).dropWhile (· ≠ '/') = rest.dropWhile (· ≠ '/') := by
        simp [List.dropWhile, hc]
      rw [e, d, ih]

theorem elems_boundary {t : Str} (h : t = [] ∨ t.head? = some '/') :
    elems false t ≤ elems true t := by
  rcases h with h | h
  · subst h; simp [elems]
  · cases t with
    | nil => simp at h
    | cons c rest =>
      simp at h
      subst h
      simp [elems]

theorem elems_trailing_slash (a : Str) (b : Bool) :
    elems b (a ++ ['/']) + (if b then 1 else 0) ≤ slashes (a ++ ['/']) := by
  induction a generalizing b with
  | nil => cases b <;> simp [elems, slashes]
  | cons c rest ih =>
    by_cases hc : c = '/'
    · subst hc
      have h := ih false
      simp only [slashes, List.cons_append, elems, if_true] at h ⊢
      rw [List.count_cons_self]
      cases b <;> simp at h ⊢ <;> omega
    · have h := ih true
      have hc2 : ('/' : Char) ≠ c := fun e => hc e.symm
      simp only [slashes, List.cons_append, elems, hc, if_false] at h ⊢
      rw [List.count_cons_of_ne hc2]
      cases b <;> simp at h ⊢ <;> omega

/-- The body of the loop of `Clean` for a path that is not rooted. -/
theorem cleanLoop_false_cons (n : Nat) (c : Char) (rest out : Str) (dd : Nat) :
    cleanLoop false (n + 1) (c :: rest) out dd =
      if c = '/' then cleanLoop false n rest out dd
      else if c = '.' ∧ (rest = [] ∨ rest.head? = some '/') then cleanLoop false n rest out dd
      else if c = '.' ∧ rest.head? = some '.' ∧
          (rest.tail = [] ∨ rest.tail.head? = some '/') then
        if out.length > dd then
          cleanLoop false n rest.tail (out.take (backtrack out dd (out.length - 1))) dd
        else
          cleanLoop false n rest.tail
            ((if out.length ≠ 0 then out ++ ['/'] else out) ++ ['.', '.'])
            ((if out.length ≠ 0 then out ++ ['/'] else out) ++ ['.', '.']).length
      else
        cleanLoop false n ((c :: rest).dropWhile (· ≠ '/'))
          ((if out.length ≠ 0 then out ++ ['/'] else out) ++
            (c :: rest).takeWhile (· ≠ '/')) dd := by
  have e1 : (((false : Bool) = true ∧ out.length ≠ 1) ∨ (¬ (false : Bool) = true ∧ out.length ≠ 0))
      = (out.length ≠ 0) := by simp
  have e2 : (out.length > 0) = (out.length ≠ 0) := by simp [Nat.pos_iff_ne_zero]
  simp only [cleanLoop, e1, e2]
  simp

theorem comps_append_elem (out e : Str) (he : e ≠ []) (hs : '/' ∉ e) :
    comps ((if out.length ≠ 0 then out ++ ['/'] else out) ++ e) = comps out + 1 := by
  have h0 : List.count '/' e = 0 := slashes_noslash hs
  by_cases ho : out = []
  · subst ho
    simp [comps, slashes, he, h0]
  · have hl : out.length ≠ 0 := by simpa using ho
    simp [comps, slashes, hl, ho, he, h0]

theorem takeWhile_ne_nil {c : Char} (rest : Str) (hc : c ≠ '/') :
    (c :: rest).takeWhile (· ≠ '/') ≠ [] := by
  simp [List.takeWhile, hc]

theorem takeWhile_noslash (s : Str) : '/' ∉ s.takeWhile (· ≠ '/') := by
  intro h
  have := List.mem_takeWhile_imp h
  simp at this

theorem cleanLoop_comps (fuel : Nat) : ∀ (rest out : Str) (dd : Nat),
    comps (cleanLoop false fuel rest out dd) ≤ comps out + elems false rest := by
  induction fuel with
  | zero => intro rest out dd; simp [cleanLoop]
  | succ n ih =>
    intro rest out dd
    cases rest with
    | nil => simp [cleanLoop]
    | cons c rest =>
      rw [cleanLoop_false_cons]
      by_cases h1 : c = '/'
      · subst h1
        simpa [elems] using ih rest out dd
      · have hE : elems false (c :: rest) = 1 + elems true rest := by simp [elems, h1]
        rw [if_neg h1, hE]
        by_cases h2 : c = '.' ∧ (rest = [] ∨ rest.head? = some '/')
        · rw [if_pos h2]
          have := ih rest out dd
          have e := elems_false_le_true rest
          omega
        · rw [if_neg h2]
          by_cases h3 : c = '.' ∧ rest.head? = some '.' ∧
              (rest.tail = [] ∨ rest.tail.head? = some '/')
          · rw [if_pos h3]
            have hb := elems_boundary h3.2.2
            have ht : elems true rest = elems true rest.tail := by
              cases rest with
              | nil => simp
              | cons d r =>
                have hd : d = '.' := by simpa using h3.2.1
                subst hd
                simp [elems]
            by_cases h4 : out.length > dd
            · rw [if_pos h4]
              have := ih rest.tail (out.take (backtrack out dd (out.length - 1))) dd
              have := comps_take_le (backtrack out dd (out.length - 1)) out
              omega
            · rw [if_neg h4]
              have := ih rest.tail ((if out.length ≠ 0 then out ++ ['/'] else out) ++ ['.', '.'])
                ((if out.length ≠ 0 then out ++ ['/'] else out) ++ ['.', '.']).length
              have := comps_append_elem out ['.', '.'] (by simp) (by decide)
              omega
          · rw [if_neg h3]
            have hd : (c :: rest).dropWhile (· ≠ '/') = rest.dropWhile (· ≠ '/') := by
              simp [List.dropWhile, h1]
            rw [hd]
            have := ih (rest.dropWhile (· ≠ '/'))
              ((if out.length ≠ 0 then out ++ ['/'] else out) ++
                (c :: rest).takeWhile (· ≠ '/')) dd
            have := comps_append_elem out ((c :: rest).takeWhile (· ≠ '/'))
              (takeWhile_ne_nil rest h1) (takeWhile_noslash _)
            have := elems_dropWhile rest
            omega

theorem head_take_ne (k : Nat) (out : Str) (h : out.head? ≠ some '/') :
    (out.take k).head? ≠ some '/' := by
  cases k with
  | zero => simp
  | succ k =>
    cases out with
    | nil => simp
    | cons c r => simpa using h

theorem head_append_sep (out e : Str) (h : out.head? ≠ some '/') (he : e.head? ≠ some '/') :
    ((if out.length ≠ 0 then out ++ ['/'] else out) ++ e).head? ≠ some '/' := by
  cases out with
  | nil => simpa using he
  | cons c r => simpa using h

theorem cleanLoop_head (fuel : Nat) : ∀ (rest out : Str) (dd : Nat),
    out.head? ≠ some '/' → (cleanLoop false fuel rest out dd).head? ≠ some '/' := by
  induction fuel with
  | zero => intro rest out dd h; simpa [cleanLoop] using h
  | succ n ih =>
    intro rest out dd h
    cases rest with
    | nil => simpa [cleanLoop] using h
    | cons c rest =>
      rw [cleanLoop_false_cons]
      by_cases h1 : c = '/'
      · rw [if_pos h1]; exact ih _ _ _ h
      · rw [if_neg h1]
        by_cases h2 : c = '.' ∧ (rest = [] ∨ rest.head? = some '/')
        · rw [if_pos h2]; exact ih _ _ _ h
        · rw [if_neg h2]
          by_cases h3 : c = '.' ∧ rest.head? = some '.' ∧
              (rest.tail = [] ∨ rest.tail.head? = some '/')
          · rw [if_pos h3]
            by_cases h4 : out.length > dd
            · rw [if_pos h4]; exact ih _ _ _ (head_take_ne _ _ h)
            · rw [if_neg h4]
              exact ih _ _ _ (head_append_sep out ['.', '.'] h (by decide))
          · rw [if_neg h3]
            refine ih _ _ _ (head_append_sep out _ h ?_)
            simp [List.takeWhile, h1]

theorem Clean_head {d : Str} (h : d.head? ≠ some '/') : (Clean d).head? ≠ some '/' := by
  unfold Clean
  by_cases hd : d = []
  · simp [hd]
  · simp only [hd, if_false, h]
    split_ifs with h2
    · decide
    · exact cleanLoop_head _ _ _ _ (by simp)

theorem Clean_slashes_lt (a : Str) (h : (a ++ ['/']).head? ≠ some '/') :
    slashes (Clean (a ++ ['/'])) < slashes (a ++ ['/']) := by
  have hpos : 0 < slashes (a ++ ['/']) := by simp [slashes]
  have hb := cleanLoop_comps ((a ++ ['/']).length + 1) (a ++ ['/']) [] 0
  have he := elems_trailing_slash a false
  unfold Clean
  have hd : a ++ ['/'] ≠ [] := by simp
  simp only [hd, if_false, h]
  split_ifs with h2
  · simp [slashes]
  · have h3 : cleanLoop false ((a ++ ['/']).length + 1) (a ++ ['/']) [] 0 ≠ [] := by
      simpa using h2
    simp only [comps, h3, if_false] at hb
    simp [slashes] at hb he ⊢
    omega

/-- The directory of a path that does not start with `/` does not start with `/`. -/
theorem Dir_head {p : Str} (h : p.head? ≠ some '/') : (Dir p).head? ≠ some '/' := by
  unfold Dir
  by_cases hs : '/' ∈ p
  · obtain ⟨a, b, hab, hb⟩ := exists_last_slash hs
    subst hab
    rw [Split_append a b hb]
    apply Clean_head
    cases a with
    | nil => simp at h
    | cons c r => simpa using h
  · rw [Split_noslash hs]
    simp [Clean]

/-- The directory of a path without `/` is `.`. -/
theorem Dir_noslash {p : Str} (hs : '/' ∉ p) : Dir p = ['.'] := by
  unfold Dir
  rw [Split_noslash hs]
  rfl

/-- The directory of a path with a `/` that does not start with `/` has strictly fewer
`/` characters. -/
theorem Dir_slashes_lt {p : Str} (h : p.head? ≠ some '/') (hs : '/' ∈ p) :
    slashes (Dir p) < slashes p := by
  unfold Dir
  obtain ⟨a, b, hab, hb⟩ := exists_last_slash hs
  subst hab
  rw [Split_append a b hb]
  have h1 : (a ++ ['/']).head? ≠ some '/' := by
    cases a with
    | nil => simp at h
    | cons c r => simpa using h
  have := Clean_slashes_lt a h1
  have e : slashes (a ++ '/' :: b) = slashes (a ++ ['/']) := by
    have := slashes_noslash hb
    simp [slashes] at this ⊢
    simp [this]
  show slashes (Clean (a ++ ['/'])) < slashes (a ++ '/' :: b)
  omega

theorem TrimLeft_head (s : Str) : (TrimLeft s ['/']).head? ≠ some '/' := by
  induction s with
  | nil => simp [TrimLeft]
  | cons c r ih =>
    by_cases hc : c = '/'
    · subst hc
      simpa [TrimLeft, List.dropWhile] using ih
    · simp [TrimLeft, List.dropWhile, hc]

theorem dropWhile_length_le (s : Str) : (s.dropWhile (· ≠ '/')).length ≤ s.length := by
  induction s with
  | nil => simp
  | cons c rest ih =>
    rw [List.dropWhile_cons]
    split
    · exact Nat.le_succ_of_le ih
    · exact le_refl _

/-- The fuel `Clean` gives its loop, one more than the length of the path, is never
used up: with any fuel that is at least the length of what is left to read the loop
computes the same output. -/
theorem cleanLoop_fuel (rooted : Bool) (f1 : Nat) : ∀ (f2 : Nat) (rest out : Str) (dd : Nat),
    rest.length ≤ f1 → rest.length ≤ f2 →
    cleanLoop rooted f1 rest out dd = cleanLoop rooted f2 rest out dd := by
  induction f1 with
  | zero =>
    intro f2 rest out dd h1 _
    have : rest = [] := List.length_eq_zero.1 (Nat.le_zero.1 h1)
    subst this
    cases f2 <;> simp [cleanLoop]
  | succ a ih =>
    intro f2 rest out dd h1 h2
    cases rest with
    | nil => cases f2 <;> simp [cleanLoop]
    | cons c rest =>
      obtain ⟨b, rfl⟩ : ∃ b, f2 = b + 1 := ⟨f2 - 1, by
        simp only [List.length_cons] at h2
        omega⟩
      simp only [List.length_cons] at h1 h2
      have hr : rest.length ≤ a := by omega
      have hr2 : rest.length ≤ b := by omega
      have ht : rest.tail.length ≤ rest.length := by simp
      by_cases hc : c = '/'
      · simp only [cleanLoop, if_pos hc]
        exact ih b _ _ _ hr hr2
      · have hd : ((c :: rest).dropWhile (· ≠ '/')).length ≤ rest.length := by
          have e : (c :: rest).dropWhile (· ≠ '/') = rest.dropWhile (· ≠ '/') := by
            simp [List.dropWhile, hc]
          rw [e]
          exact dropWhile_length_le rest
        simp only [cleanLoop, if_neg hc]
        split_ifs
        all_goals exact ih b _ _ _ (by omega) (by omega)

/-! ## `path.Dir` on paths of plain segments -/

theorem takeWhile_seg (s rest : Str) (hs : '/' ∉ s) (hr : rest = [] ∨ rest.head? = some '/') :
    (s ++ rest).takeWhile (· ≠ '/') = s := by
  induction s with
  | nil =>
    rcases hr with hr | hr
    · subst hr; rfl
    · cases rest with
      | nil => rfl
      | cons c r =>
        have : c = '/' := by simpa using hr
        subst this
        simp [List.takeWhile]
  | cons c r ih =>
    simp only [List.mem_cons, not_or] at hs
    have hc : c ≠ '/' := fun e => hs.1 e.symm
    have := ih hs.2
    simp [List.takeWhile, hc]
    simpa using this

theorem dropWhile_seg (s rest : Str) (hs : '/' ∉ s) (hr : rest = [] ∨ rest.head? = some '/') :
    (s ++ rest).dropWhile (· ≠ '/') = rest := by
  induction s with
  | nil =>
    rcases hr with hr | hr
    · subst hr; rfl
    · cases rest with
      | nil => rfl
      | cons c r =>
        have : c = '/' := by simpa using hr
        subst this
        simp [List.dropWhile]
  | cons c r ih =>
    simp only [List.mem_cons, not_or] at hs
    have hc : c ≠ '/' := fun e => hs.1 e.symm
    have := ih hs.2
    simp [List.dropWhile, hc]
    simpa using this

theorem cleanLoop_nil (n : Nat) (out : Str) (dd : Nat) : cleanLoop false n [] out dd = out := by
  cases n <;> simp [cleanLoop]

theorem cleanLoop_slash (n : Nat) (rest out : Str) (dd : Nat) :
    cleanLoop false (n + 1) ('/' :: rest) out dd = cleanLoop false n rest out dd := by
  rw [cleanLoop_false_cons, if_pos rfl]

/-- One plain segment is copied to the output as it stands, after a separating `/`. -/
theorem cleanLoop_plain (n : Nat) (s rest out : Str) (dd : Nat) (hs : Plain s)
    (hr : rest = [] ∨ rest.head? = some '/') :
    cleanLoop false (n + 1) (s ++ rest) out dd =
      cleanLoop false n rest ((if out.length ≠ 0 then out ++ ['/'] else out) ++ s) dd := by
  obtain ⟨hne, hsl, hdot, hdd⟩ := hs
  have htw := takeWhile_seg s rest hsl hr
  have hdw := dropWhile_seg s rest hsl hr
  cases s with
  | nil => exact absurd rfl hne
  | cons c t =>
    simp only [List.mem_cons, not_or] at hsl
    have h1 : c ≠ '/' := fun e => hsl.1 e.symm
    have h2 : ¬ (c = '.' ∧ (t ++ rest = [] ∨ (t ++ rest).head? = some '/')) := by
      rintro ⟨hc, h⟩
      cases t with
      | nil => exact hdot (by rw [hc])
      | cons d t2 =>
        simp only [List.mem_cons, not_or] at hsl
        rcases h with h | h
        · simp at h
        · have : d = '/' := by simpa using h
          exact hsl.2.1 this.symm
    have h3 : ¬ (c = '.' ∧ (t ++ rest).head? = some '.' ∧
        ((t ++ rest).tail = [] ∨ (t ++ rest).tail.head? = some '/')) := by
      rintro ⟨hc, hd, h⟩
      cases t with
      | nil => exact hdot (by rw [hc])
      | cons d t2 =>
        have hd2 : d = '.' := by simpa using hd
        cases t2 with
        | nil => exact hdd (by rw [hc, hd2])
        | cons e t3 =>
          simp only [List.mem_cons, not_or] at hsl
          rcases h with h | h
          · simp at h
          · have : e = '/' := by simpa using h
            exact hsl.2.2.1 this.symm
    rw [List.cons_append, cleanLoop_false_cons, if_neg h1, if_neg h2, if_neg h3,
      ← List.cons_append, htw, hdw]

theorem joinPath_cons (s : Str) {rest : List Str} (h : rest ≠ []) :
    joinPath (s :: rest) = s ++ '/' :: joinPath rest := by
  cases rest with
  | nil => exact absurd rfl h
  | cons a r => rfl

theorem joinPath_append_single {segs : List Str} (h : segs ≠ []) (last : Str) :
    joinPath (segs ++ [last]) = joinPath segs ++ '/' :: last := by
  induction segs with
  | nil => exact absurd rfl h
  | cons s rest ih =>
    cases rest with
    | nil => rfl
    | cons a r =>
      have h1 : a :: r ≠ [] := by simp
      have h2 : a :: r ++ [last] ≠ [] := by simp
      rw [List.cons_append, joinPath_cons s h2, ih h1, joinPath_cons s h1]
      simp

theorem cleanLoop_joinPath : ∀ (segs : List Str), segs ≠ [] → (∀ s ∈ segs, Plain s) →
    ∀ (fuel : Nat) (out : Str) (dd : Nat), (joinPath segs ++ ['/']).length ≤ fuel →
    cleanLoop false fuel (joinPath segs ++ ['/']) out dd =
      (if out.length ≠ 0 then out ++ ['/'] else out) ++ joinPath segs := by
  intro segs
  induction segs with
  | nil => intro h; exact absurd rfl h
  | cons s rest ih =>
    intro _ hp fuel out dd hf
    have hs : Plain s := hp s (List.mem_cons_self _ _)
    have hlen : 0 < s.length := List.length_pos.2 hs.1
    cases rest with
    | nil =>
      simp only [joinPath, List.length_append, List.length_singleton] at hf ⊢
      obtain ⟨n, rfl⟩ : ∃ n, fuel = n + 2 := ⟨fuel - 2, by omega⟩
      rw [cleanLoop_plain _ s ['/'] _ _ hs (Or.inr rfl), cleanLoop_slash, cleanLoop_nil]
    | cons a r =>
      have h1 : a :: r ≠ [] := by simp
      rw [joinPath_cons s h1] at hf ⊢
      simp only [List.length_append, List.length_cons, List.length_singleton] at hf
      obtain ⟨n, rfl⟩ : ∃ n, fuel = n + 2 := ⟨fuel - 2, by omega⟩
      have e : s ++ '/' :: joinPath (a :: r) ++ ['/'] =
          s ++ ('/' :: (joinPath (a :: r) ++ ['/'])) := by simp
      rw [e, cleanLoop_plain _ s ('/' :: (joinPath (a :: r) ++ ['/'])) _ _ hs (Or.inr rfl),
        cleanLoop_slash,
        ih h1 (fun x hx => hp x (List.mem_cons_of_mem _ hx)) n _ dd
          (by simp only [List.length_append, List.length_singleton]; omega)]
      have hne : ((if out.length ≠ 0 then out ++ ['/'] else out) ++ s).length ≠ 0 := by
        simp only [List.length_append]; omega
      rw [if_pos hne]
      simp

theorem joinPath_head {segs : List Str} (hp : ∀ s ∈ segs, Plain s) :
    (joinPath segs).head? ≠ some '/' := by
  cases segs with
  | nil => simp [joinPath]
  | cons s rest =>
    have hs : Plain s := hp s (List.mem_cons_self _ _)
    have hh : s.head? ≠ some '/' := by
      cases s with
      | nil => simp
      | cons c t =>
        have := hs.2.1
        simp only [List.mem_cons, not_or] at this
        simpa using fun e : c = '/' => this.1 e.symm
    cases rest with
    | nil => simpa [joinPath] using hh
    | cons a r =>
      rw [joinPath_cons s (by simp)]
      cases s with
      | nil => exact absurd rfl hs.1
      | cons c t => simpa using hh

theorem joinPath_ne_nil {segs : List Str} (h : segs ≠ []) (hp : ∀ s ∈ segs, Plain s) :
    joinPath segs ≠ [] := by
  cases segs with
  | nil => exact absurd rfl h
  | cons s rest =>
    have hs : Plain s := hp s (List.mem_cons_self _ _)
    cases rest with
    | nil => simpa [joinPath] using hs.1
    | cons a r => rw [joinPath_cons s (by simp)]; simp

/-- The routine `Clean` leaves a path of plain segments followed by `/` without the final `/`. -/
theorem Clean_joinPath {segs : List Str} (h : segs ≠ []) (hp : ∀ s ∈ segs, Plain s) :
    Clean (joinPath segs ++ ['/']) = joinPath segs := by
  have hh : (joinPath segs ++ ['/']).head? ≠ some '/' := by
    have h1 := joinPath_head hp
    have h2 := joinPath_ne_nil h hp
    cases hj : joinPath segs with
    | nil => exact absurd hj h2
    | cons c t => rw [hj] at h1; simpa using h1
  have hl := cleanLoop_joinPath segs h hp ((joinPath segs ++ ['/']).length + 1) [] 0
    (Nat.le_succ _)
  unfold Clean
  have hd : joinPath segs ++ ['/'] ≠ [] := by simp
  simp only [hd, if_false, hh, hl]
  simp [joinPath_ne_nil h hp]

/-- The directory of `s1/.../sn/last` is `s1/.../sn`. -/
theorem Dir_joinPath {segs : List Str} (h : segs ≠ []) (hp : ∀ s ∈ segs, Plain s)
    {last : Str} (hl : Plain last) : Dir (joinPath (segs ++ [last])) = joinPath segs := by
  unfold Dir
  rw [joinPath_append_single h, Split_append _ _ hl.2.1]
  exact Clean_joinPath h hp

theorem slashes_joinPath {segs : List Str} (hp : ∀ s ∈ segs, Plain s) :
    slashes (joinPath segs) = segs.length - 1 := by
  induction segs with
  | nil => simp [joinPath, slashes]
  | cons s rest ih =>
    have hs : Plain s := hp s (List.mem_cons_self _ _)
    have h0 : List.count '/' s = 0 := slashes_noslash hs.2.1
    cases rest with
    | nil => simpa [joinPath, slashes] using h0
    | cons a r =>
      have := ih (fun x hx => hp x (List.mem_cons_of_mem _ hx))
      rw [joinPath_cons s (by simp)]
      simp [slashes] at this ⊢
      omega

theorem joinPath_ne_dot {segs : List Str} (h : segs ≠ []) (hp : ∀ s ∈ segs, Plain s) :
    joinPath segs ≠ ['.'] := by
  cases segs with
  | nil => exact absurd rfl h
  | cons s rest =>
    have hs : Plain s := hp s (List.mem_cons_self _ _)
    cases rest with
    | nil => simpa [joinPath] using hs.2.2.1
    | cons a r =>
      intro e
      have := slashes_joinPath hp
      rw [e] at this
      simp [slashes] at this

/-! ## The handler, branch by branch -/

theorem handler_hit_read {C : Type} (K : ARCCache C) (urlParse : UrlParse) (gp : GetProject)
    (fuel : Nat) (cache c1 : C) (r : Request) (v : Project)
    (hg : K.Get cache r.Path = (some v, c1)) (hm : r.Method ≠ MethodDelete) :
    handler K urlParse gp fuel cache r =
      some { w := sendResponse urlParse newRecorder (some v), cache := c1, calls := [],
             firstError := none, proj := some v } := by
  simp [handler, hg, hm]

theorem handler_hit_delete {C : Type} (K : ARCCache C) (urlParse : UrlParse) (gp : GetProject)
    (fuel : Nat) (cache c1 : C) (r : Request) (v : Project)
    (hg : K.Get cache r.Path = (some v, c1)) (hm : r.Method = MethodDelete) :
    handler K urlParse gp fuel cache r =
      some { w := Fprintln newRecorder "OK".toList, cache := K.Remove c1 r.Path, calls := [],
             firstError := none, proj := none } := by
  simp [handler, hg, hm]

theorem handler_miss_delete {C : Type} (K : ARCCache C) (urlParse : UrlParse) (gp : GetProject)
    (fuel : Nat) (cache c1 : C) (r : Request)
    (hg : K.Get cache r.Path = (none, c1)) (hm : r.Method = MethodDelete) :
    handler K urlParse gp fuel cache r =
      some { w := NotFound newRecorder, cache := c1, calls := [],
             firstError := none, proj := none } := by
  simp [handler, hg, hm]

theorem handler_miss_read {C : Type} (K : ARCCache C) (urlParse : UrlParse) (gp : GetProject)
    (fuel : Nat) (cache c1 : C) (r : Request)
    (hg : K.Get cache r.Path = (none, c1)) (hm : r.Method ≠ MethodDelete) :
    handler K urlParse gp fuel cache r =
      walk K urlParse gp r newRecorder c1 fuel (TrimLeft r.Path ['/']) none [] := by
  simp [handler, hg, hm]

theorem walk_ok {C : Type} (K : ARCCache C) (urlParse : UrlParse) (gp : GetProject)
    (r : Request) (w : statusRecorder) (cache : C) (n : Nat) (rpath : Str)
    (fe : Option GitlabError) (calls : List (Str × Str)) (proj : Project)
    (hgp : gp r.PrivateToken rpath = .ok proj) :
    walk K urlParse gp r w cache (n + 1) rpath fe calls =
      some { w := sendResponse urlParse w (some proj), cache := K.Add cache r.Path proj,
             calls := calls ++ [(rpath, r.PrivateToken)], firstError := fe,
             proj := some proj } := by
  rw [walk]
  simp only [hgp]

theorem walk_error {C : Type} (K : ARCCache C) (urlParse : UrlParse) (gp : GetProject)
    (r : Request) (w : statusRecorder) (cache : C) (n : Nat) (rpath : Str)
    (fe : Option GitlabError) (calls : List (Str × Str)) (err : GitlabError)
    (hgp : gp r.PrivateToken rpath = .error err) :
    walk K urlParse gp r w cache (n + 1) rpath fe calls =
      if Dir rpath = ['.'] then
        some { w := Error (writeErrorResponse w (fe.getD err)) err.Error 500, cache := cache,
               calls := calls ++ [(rpath, r.PrivateToken)],
               firstError := some (fe.getD err), proj := none }
      else
        walk K urlParse gp r w cache n (Dir rpath) (some (fe.getD err))
          (calls ++ [(rpath, r.PrivateToken)]) := by
  rw [walk]
  simp only [hgp]
  cases fe with
  | none =>
    cases err <;> simp [writeErrorResponse]
  | some e =>
    cases e <;> simp [writeErrorResponse]

/-- More fuel does not change what the loop returns. -/
theorem walk_fuel_mono {C : Type} (K : ARCCache C) (urlParse : UrlParse) (gp : GetProject)
    (r : Request) (w : statusRecorder) (cache : C) (fuel : Nat) :
    ∀ (more : Nat) (rpath : Str) (fe : Option GitlabError) (calls : List (Str × Str))
      (out : Outcome C),
    walk K urlParse gp r w cache fuel rpath fe calls = some out →
    walk K urlParse gp r w cache (fuel + more) rpath fe calls = some out := by
  induction fuel with
  | zero => intro more rpath fe calls out h; simp [walk] at h
  | succ n ih =>
    intro more rpath fe calls out h
    have e : n + 1 + more = (n + more) + 1 := by omega
    rw [e]
    cases hgp : gp r.PrivateToken rpath with
    | ok proj =>
      rw [walk_ok _ _ _ _ _ _ _ _ _ _ _ hgp] at h ⊢
      exact h
    | error err =>
      rw [walk_error _ _ _ _ _ _ _ _ _ _ _ hgp] at h ⊢
      by_cases hd : Dir rpath = ['.']
      · rw [if_pos hd] at h ⊢
        exact h
      · rw [if_neg hd] at h ⊢
        exact ih more _ _ _ _ h

/-- With fuel above the number of slashes of a candidate that does not start with `/`,
the loop returns, after at most one call per slash and one more. -/
theorem walk_terminates {C : Type} (K : ARCCache C) (urlParse : UrlParse) (gp : GetProject)
    (r : Request) (w : statusRecorder) (cache : C) (fuel : Nat) :
    ∀ (rpath : Str) (fe : Option GitlabError) (calls : List (Str × Str)),
    rpath.head? ≠ some '/' → slashes rpath < fuel →
    ∃ out, walk K urlParse gp r w cache fuel rpath fe calls = some out ∧
      out.calls.length ≤ calls.length + slashes rpath + 1 := by
  induction fuel with
  | zero => intro rpath fe calls _ h; omega
  | succ n ih =>
    intro rpath fe calls hh hf
    cases hgp : gp r.PrivateToken rpath with
    | ok proj =>
      rw [walk_ok _ _ _ _ _ _ _ _ _ _ _ hgp]
      exact ⟨_, rfl, by simp only [List.length_append, List.length_singleton]; omega⟩
    | error err =>
      rw [walk_error _ _ _ _ _ _ _ _ _ _ _ hgp]
      by_cases hd : Dir rpath = ['.']
      · rw [if_pos hd]
        exact ⟨_, rfl, by simp only [List.length_append, List.length_singleton]; omega⟩
      · rw [if_neg hd]
        have hs : '/' ∈ rpath := by
          by_contra hs
          exact hd (Dir_noslash hs)
        have hlt := Dir_slashes_lt hh hs
        obtain ⟨out, ho, hl⟩ := ih (Dir rpath)
          (some (fe.getD err)) (calls ++ [(rpath, r.PrivateToken)])
          (Dir_head hh) (by omega)
        refine ⟨out, ho, ?_⟩
        simp only [List.length_append, List.length_singleton] at hl
        omega

theorem candidates_stable (f1 : Nat) : ∀ (f2 : Nat) (rpath : Str),
    rpath.head? ≠ some '/' → slashes rpath < f1 → slashes rpath < f2 →
    candidates f1 rpath = candidates f2 rpath := by
  induction f1 with
  | zero => intro f2 rpath _ h; omega
  | succ a ih =>
    intro f2 rpath hh h1 h2
    obtain ⟨b, rfl⟩ : ∃ b, f2 = b + 1 := ⟨f2 - 1, by omega⟩
    simp only [candidates]
    by_cases hd : Dir rpath = ['.']
    · simp [hd]
    · have hs : '/' ∈ rpath := by
        by_contra hs
        exact hd (Dir_noslash hs)
      have hlt := Dir_slashes_lt hh hs
      simp only [hd, if_false]
      rw [ih b (Dir rpath) (Dir_head hh) (by omega) (by omega)]

theorem prefixes_last {rpath : Str} (hd : Dir rpath = ['.']) : prefixes rpath = [rpath] := by
  simp [prefixes, candidates, hd]

theorem prefixes_step {rpath : Str} (hh : rpath.head? ≠ some '/') (hd : Dir rpath ≠ ['.']) :
    prefixes rpath = rpath :: prefixes (Dir rpath) := by
  have hs : '/' ∈ rpath := by
    by_contra hs
    exact hd (Dir_noslash hs)
  have hlt := Dir_slashes_lt hh hs
  have e : candidates (slashes rpath + 1) rpath =
      rpath :: (if Dir rpath = ['.'] then [] else candidates (slashes rpath) (Dir rpath)) := rfl
  unfold prefixes
  rw [e, if_neg hd, candidates_stable (slashes rpath) (slashes (Dir rpath) + 1) (Dir rpath)
    (Dir_head hh) hlt (Nat.lt_succ_self _)]

theorem mem_prefixes_self (rpath : Str) : rpath ∈ prefixes rpath := by
  simp [prefixes, candidates]

/-- When the lookup of every prefix fails, the loop returns the failure rendering: the
first `if` on the error of the first candidate, then `http.Error` with the text of the
error of the last candidate and status 500. -/
theorem walk_all_fail {C : Type} (K : ARCCache C) (urlParse : UrlParse) (gp : GetProject)
    (r : Request) (w : statusRecorder) (cache : C) (fuel : Nat) :
    ∀ (rpath : Str) (fe : Option GitlabError) (calls : List (Str × Str)) (e1 : GitlabError),
    rpath.head? ≠ some '/' → slashes rpath < fuel →
    (∀ p ∈ prefixes rpath, ∃ e, gp r.PrivateToken p = .error e) →
    gp r.PrivateToken rpath = .error e1 →
    ∃ out elast, walk K urlParse gp r w cache fuel rpath fe calls = some out ∧
      (∃ p ∈ prefixes rpath, gp r.PrivateToken p = .error elast) ∧
      (Dir rpath = ['.'] → elast = e1) ∧
      out.w = Error (writeErrorResponse w (fe.getD e1)) elast.Error 500 ∧
      out.proj = none ∧ out.cache = cache ∧ out.firstError = some (fe.getD e1) := by
  induction fuel with
  | zero => intro rpath fe calls e1 _ h; omega
  | succ n ih =>
    intro rpath fe calls e1 hh hf hall hgp
    rw [walk_error _ _ _ _ _ _ _ _ _ _ _ hgp]
    by_cases hd : Dir rpath = ['.']
    · rw [if_pos hd]
      exact ⟨_, e1, rfl, ⟨rpath, mem_prefixes_self _, hgp⟩, fun _ => rfl, rfl, rfl, rfl, rfl⟩
    · rw [if_neg hd]
      have hs : '/' ∈ rpath := by
        by_contra hs
        exact hd (Dir_noslash hs)
      have hlt := Dir_slashes_lt hh hs
      have hp := prefixes_step hh hd
      have hmem : Dir rpath ∈ prefixes rpath := by
        rw [hp]
        exact List.mem_cons_of_mem _ (mem_prefixes_self _)
      obtain ⟨e2, he2⟩ := hall (Dir rpath) hmem
      obtain ⟨out, elast, ho, ⟨q, hq, hqe⟩, _, hw, hpj, hc, hfe⟩ := ih (Dir rpath)
        (some (fe.getD e1)) (calls ++ [(rpath, r.PrivateToken)]) e2 (Dir_head hh) (by omega)
        (fun q hq => hall q (by rw [hp]; exact List.mem_cons_of_mem _ hq)) he2
      refine ⟨out, elast, ho, ⟨q, by rw [hp]; exact List.mem_cons_of_mem _ hq, hqe⟩,
        fun h => absurd h hd, ?_, hpj, hc, ?_⟩
      · simpa using hw
      · simpa using hfe

/-! ## What the failure rendering writes -/

theorem failure_wire_status (e1 : GitlabError) (t : Str) :
    (Error (writeErrorResponse newRecorder e1) t 500).ResponseWriter.status =
      match e1 with
      | .ErrorResponse _ code _ => code
      | .other _ => 500 := by
  cases e1 with
  | ErrorResponse st code text =>
    by_cases hc : bodyAllowedForStatus code = true <;>
      simp [Error, Fprintln, writeErrorResponse, statusRecorder.WriteHeader,
        statusRecorder.Write, ResponseWriter.WriteHeader, ResponseWriter.Write, newRecorder,
        newResponse, hc]
  | other text =>
    have h5 : bodyAllowedForStatus 500 = true := by decide
    simp [Error, Fprintln, writeErrorResponse, statusRecorder.WriteHeader,
      statusRecorder.Write, ResponseWriter.WriteHeader, ResponseWriter.Write, newRecorder,
      newResponse, h5]

theorem failure_body (e1 : GitlabError) (t : Str) :
    (Error (writeErrorResponse newRecorder e1) t 500).ResponseWriter.body =
      match e1 with
      | .ErrorResponse st code _ =>
        if bodyAllowedForStatus code then st ++ ['\n'] ++ (t ++ ['\n']) else []
      | .other _ => t ++ ['\n'] := by
  cases e1 with
  | ErrorResponse st code text =>
    by_cases hc : bodyAllowedForStatus code = true <;>
      simp [Error, Fprintln, writeErrorResponse, statusRecorder.WriteHeader,
        statusRecorder.Write, ResponseWriter.WriteHeader, ResponseWriter.Write, newRecorder,
        newResponse, hc]
  | other text =>
    have h5 : bodyAllowedForStatus 500 = true := by decide
    simp [Error, Fprintln, writeErrorResponse, statusRecorder.WriteHeader,
      statusRecorder.Write, ResponseWriter.WriteHeader, ResponseWriter.Write, newRecorder,
      newResponse, h5]

/-- The status the log line shows after a failure rendering is the last one written. -/
theorem failure_logged_status (e1 : GitlabError) (t : Str) :
    (Error (writeErrorResponse newRecorder e1) t 500).getStatus = 500 := by
  cases e1 <;>
    simp [Error, Fprintln, writeErrorResponse, statusRecorder.WriteHeader, statusRecorder.Write,
      statusRecorder.getStatus]

theorem get_miss {C : Type} (K : ARCCache C) (cache : C) (k : Str)
    (h : (K.Get cache k).1 = none) : K.Get cache k = (none, (K.Get cache k).2) := by
  rw [← h]

/-! ## The walk on a path of plain segments -/

theorem take_succ_snoc (l : List Str) (n : Nat) (h : n < l.length) :
    ∃ x ∈ l, l.take (n + 1) = l.take n ++ [x] := by
  refine ⟨l[n], List.getElem_mem h, ?_⟩
  rw [List.take_succ, List.getElem?_eq_getElem h]
  rfl

theorem Dir_take_succ {segs : List Str} (hplain : ∀ s ∈ segs, Plain s) {n : Nat}
    (h1 : 1 ≤ n) (h : n < segs.length) :
    Dir (joinPath (segs.take (n + 1))) = joinPath (segs.take n) := by
  obtain ⟨x, hx, e⟩ := take_succ_snoc segs n h
  rw [e]
  have hne : segs.take n ≠ [] := by
    intro h0
    have := congrArg List.length h0
    simp only [List.length_take, List.length_nil] at this
    omega
  exact Dir_joinPath hne (fun s hs => hplain s (List.mem_of_mem_take hs)) (hplain x hx)

theorem mem_prefixesDown {segs : List Str} {k : Nat} {p : Str} :
    ∀ {d : Nat}, p ∈ prefixesDown segs k d → ∃ i, i ≤ d ∧ p = joinPath (segs.take (k + i)) := by
  intro d
  induction d with
  | zero =>
    intro h
    simp only [prefixesDown, List.mem_singleton] at h
    exact ⟨0, le_refl _, h⟩
  | succ d ih =>
    intro h
    simp only [prefixesDown, List.mem_cons] at h
    rcases h with h | h
    · exact ⟨d + 1, le_refl _, h⟩
    · obtain ⟨i, hi, e⟩ := ih h
      exact ⟨i, Nat.le_succ_of_le hi, e⟩

theorem joinPath_take_ne {segs : List Str} (hplain : ∀ s ∈ segs, Plain s) {j m : Nat}
    (hjm : j < m) (hm : m ≤ segs.length) :
    joinPath (segs.take j) ≠ joinPath (segs.take m) := by
  intro e
  have hpj : ∀ s ∈ segs.take j, Plain s := fun s hs => hplain s (List.mem_of_mem_take hs)
  have hpm : ∀ s ∈ segs.take m, Plain s := fun s hs => hplain s (List.mem_of_mem_take hs)
  have hmne : segs.take m ≠ [] := by
    intro h0
    have := congrArg List.length h0
    simp only [List.length_take, List.length_nil] at this
    omega
  by_cases hj : j = 0
  · subst hj
    exact joinPath_ne_nil hmne hpm (by rw [← e]; rfl)
  · have h1 := slashes_joinPath hpj
    have h2 := slashes_joinPath hpm
    rw [e, h2] at h1
    simp only [List.length_take] at h1
    omega

/-- On a path of plain segments whose lookups fail above `s1/.../sk` and succeed there,
the loop queries the prefixes from the longest down to `s1/.../sk`, adds the record found
there to the cache under the request path and hands it to `sendResponse`. -/
theorem walk_segments {C : Type} (K : ARCCache C) (urlParse : UrlParse) (gp : GetProject)
    (r : Request) (w : statusRecorder) (cache : C) (segs : List Str) (k : Nat)
    (found : Project) (hplain : ∀ s ∈ segs, Plain s) (hk1 : 1 ≤ k)
    (hfail : ∀ j, k < j → j ≤ segs.length →
      ∃ e, gp r.PrivateToken (joinPath (segs.take j)) = .error e)
    (hok : gp r.PrivateToken (joinPath (segs.take k)) = .ok found) :
    ∀ (d fuel : Nat) (fe : Option GitlabError) (calls : List (Str × Str)),
    k + d ≤ segs.length → d < fuel →
    ∃ out, walk K urlParse gp r w cache fuel (joinPath (segs.take (k + d))) fe calls = some out ∧
      out.proj = some found ∧ out.w = sendResponse urlParse w (some found) ∧
      out.cache = K.Add cache r.Path found ∧
      out.calls = calls ++ (prefixesDown segs k d).map (fun p => (p, r.PrivateToken)) := by
  intro d
  induction d with
  | zero =>
    intro fuel fe calls _ hf
    obtain ⟨n, rfl⟩ : ∃ n, fuel = n + 1 := ⟨fuel - 1, by omega⟩
    show ∃ out, walk K urlParse gp r w cache (n + 1) (joinPath (segs.take k)) fe calls
      = some out ∧ _
    rw [walk_ok _ _ _ _ _ _ _ _ _ _ _ hok]
    exact ⟨_, rfl, rfl, rfl, rfl, rfl⟩
  | succ d ih =>
    intro fuel fe calls hl hf
    obtain ⟨n, rfl⟩ : ∃ n, fuel = n + 1 := ⟨fuel - 1, by omega⟩
    obtain ⟨e, he⟩ := hfail (k + (d + 1)) (by omega) hl
    have hdir : Dir (joinPath (segs.take (k + (d + 1)))) = joinPath (segs.take (k + d)) := by
      have h0 : k + (d + 1) = (k + d) + 1 := by omega
      have h1 : 1 ≤ k + d := by omega
      have h2 : k + d < segs.length := by omega
      rw [h0]
      exact Dir_take_succ hplain h1 h2
    have hne : segs.take (k + d) ≠ [] := by
      intro h0
      have := congrArg List.length h0
      simp only [List.length_take, List.length_nil] at this
      omega
    have hdot : joinPath (segs.take (k + d)) ≠ ['.'] :=
      joinPath_ne_dot hne (fun s hs => hplain s (List.mem_of_mem_take hs))
    rw [walk_error _ _ _ _ _ _ _ _ _ _ _ he, hdir, if_neg hdot]
    obtain ⟨out, ho, h1, h2, h3, h4⟩ := ih n (some (fe.getD e))
      (calls ++ [(joinPath (segs.take (k + (d + 1))), r.PrivateToken)]) (by omega) (by omega)
    refine ⟨out, ho, h1, h2, h3, ?_⟩
    rw [h4]
    simp [prefixesDown]

theorem sendResponse_ok (urlParse : UrlParse) (p : Project) (u : URL)
    (h : urlParse p.HTTPURLToRepo = .ok u) :
    (sendResponse urlParse newRecorder (some p)).ResponseWriter =
      { wroteHeader := true, status := 200,
        body := Sprintf payloadFormat [u.Host, p.PathWithNamespace, p.HTTPURLToRepo, p.WebURL] } := by
  have h2 : bodyAllowedForStatus 200 = true := by decide
  simp [sendResponse, h, statusRecorder.Write, ResponseWriter.Write, ResponseWriter.WriteHeader,
    newRecorder, newResponse, h2]

theorem sendResponse_parse_error (urlParse : UrlParse) (p : Project) (msg : Str)
    (h : urlParse p.HTTPURLToRepo = .error msg) :
    (sendResponse urlParse newRecorder (some p)).ResponseWriter =
      { wroteHeader := true, status := 500, body := msg ++ ['\n'] } := by
  have h5 : bodyAllowedForStatus 500 = true := by decide
  simp [sendResponse, h, Error, Fprintln, statusRecorder.Write, statusRecorder.WriteHeader,
    ResponseWriter.Write, ResponseWriter.WriteHeader, newRecorder, newResponse, h5]

/-! ## The cache instance and the handler on a lawful cache -/

theorem filter_cons_keep (k a : Str) (b : Project) (l : List (Str × Project)) (h : a ≠ k) :
    ((a, b) :: l).filter (fun e => e.1 ≠ k) = (a, b) :: l.filter (fun e => e.1 ≠ k) := by
  rw [List.filter_cons, if_pos (by simpa using h)]

theorem filter_cons_drop (k : Str) (b : Project) (l : List (Str × Project)) :
    ((k, b) :: l).filter (fun e => e.1 ≠ k) = l.filter (fun e => e.1 ≠ k) := by
  rw [List.filter_cons, if_neg (by simp)]

theorem lookup_cons_ne (k a : Str) (b : Project) (l : List (Str × Project)) (h : k ≠ a) :
    ((a, b) :: l).lookup k = l.lookup k := by
  have h2 : (k == a) = false := by simpa using h
  simp only [List.lookup, h2]

theorem lookup_cons_self (k : Str) (b : Project) (l : List (Str × Project)) :
    ((k, b) :: l).lookup k = some b := by
  simp only [List.lookup, beq_self_eq_true]

theorem lookup_filter_self (k : Str) (l : List (Str × Project)) :
    (l.filter (fun e => e.1 ≠ k)).lookup k = none := by
  induction l with
  | nil => rfl
  | cons e rest ih =>
    obtain ⟨a, b⟩ := e
    by_cases h : a = k
    · subst h
      rw [filter_cons_drop, ih]
    · rw [filter_cons_keep k a b rest h, lookup_cons_ne k a b _ (fun e => h e.symm), ih]

theorem lookup_filter_other (k k2 : Str) (h : k2 ≠ k) (l : List (Str × Project)) :
    (l.filter (fun e => e.1 ≠ k)).lookup k2 = l.lookup k2 := by
  induction l with
  | nil => rfl
  | cons e rest ih =>
    obtain ⟨a, b⟩ := e
    by_cases h1 : a = k
    · subst h1
      rw [filter_cons_drop, lookup_cons_ne k2 a b _ h, ih]
    · rw [filter_cons_keep k a b rest h1]
      by_cases h3 : k2 = a
      · subst h3
        rw [lookup_cons_self, lookup_cons_self]
      · rw [lookup_cons_ne k2 a b _ h3, lookup_cons_ne k2 a b _ h3, ih]

theorem lookup_take (n : Nat) (k : Str) (v : Project) :
    ∀ (l : List (Str × Project)), (l.take n).lookup k = some v → l.lookup k = some v := by
  induction n with
  | zero => intro l h; simp at h
  | succ n ih =>
    intro l h
    cases l with
    | nil => simp at h
    | cons e rest =>
      obtain ⟨a, b⟩ := e
      by_cases h3 : k = a
      · subst h3
        simpa [List.lookup] using h
      · have h2 : (k == a) = false := by simpa using h3
        simp only [List.take_succ_cons, List.lookup, h2] at h ⊢
        exact ih rest h

/-- The first-in-first-out cache meets the contract of the cache operations. -/
theorem fifoCache_lawful : fifoCache.Lawful where
  get_val := fun _ _ => rfl
  get_peek := fun _ _ _ => rfl
  get_size := fun _ _ => rfl
  add_same := by
    intro c k v h
    show (((k, v) :: c.entries.filter (fun e => e.1 ≠ k)).take c.size).lookup k = some v
    obtain ⟨n, hn⟩ : ∃ n, c.size = n + 1 := ⟨c.size - 1, by
      have : 0 < c.size := h
      omega⟩
    rw [hn]
    simp [List.lookup]
  add_other := by
    intro c k v k2 v2 hne h
    have h1 := lookup_take _ _ _ _ h
    have h2 : (k2 == k) = false := by simpa using hne
    simp only [List.lookup, h2] at h1
    rw [lookup_filter_other k k2 hne] at h1
    exact h1
  add_size := fun _ _ _ => rfl
  remove_same := fun c k => lookup_filter_self k c.entries
  remove_other := fun c k k2 h => lookup_filter_other k k2 h c.entries
  remove_size := fun _ _ => rfl

/-- A run of the loop that ends with a record has rendered it and added it to the cache
under the request path. -/
theorem walk_found {C : Type} (K : ARCCache C) (urlParse : UrlParse) (gp : GetProject)
    (r : Request) (w : statusRecorder) (cache : C) (fuel : Nat) :
    ∀ (rpath : Str) (fe : Option GitlabError) (calls : List (Str × Str)) (out : Outcome C)
      (found : Project),
    walk K urlParse gp r w cache fuel rpath fe calls = some out → out.proj = some found →
    out.w = sendResponse urlParse w (some found) ∧ out.cache = K.Add cache r.Path found := by
  induction fuel with
  | zero => intro rpath fe calls out found h; simp [walk] at h
  | succ n ih =>
    intro rpath fe calls out found h hp
    cases hgp : gp r.PrivateToken rpath with
    | ok proj =>
      rw [walk_ok _ _ _ _ _ _ _ _ _ _ _ hgp] at h
      cases h
      cases hp
      exact ⟨rfl, rfl⟩
    | error err =>
      rw [walk_error _ _ _ _ _ _ _ _ _ _ _ hgp] at h
      by_cases hd : Dir rpath = ['.']
      · rw [if_pos hd] at h
        cases h
        cases hp
      · rw [if_neg hd] at h
        exact ih _ _ _ _ _ h hp

/-- A run of the loop first calls the backend for the candidate it starts from. -/
theorem walk_first_call {C : Type} (K : ARCCache C) (urlParse : UrlParse) (gp : GetProject)
    (r : Request) (w : statusRecorder) (cache : C) (fuel : Nat) :
    ∀ (rpath : Str) (fe : Option GitlabError) (calls : List (Str × Str)) (out : Outcome C),
    walk K urlParse gp r w cache fuel rpath fe calls = some out →
    ∃ rest, out.calls = calls ++ (rpath, r.PrivateToken) :: rest := by
  induction fuel with
  | zero => intro rpath fe calls out h; simp [walk] at h
  | succ n ih =>
    intro rpath fe calls out h
    cases hgp : gp r.PrivateToken rpath with
    | ok proj =>
      rw [walk_ok _ _ _ _ _ _ _ _ _ _ _ hgp] at h
      cases h
      exact ⟨[], rfl⟩
    | error err =>
      rw [walk_error _ _ _ _ _ _ _ _ _ _ _ hgp] at h
      by_cases hd : Dir rpath = ['.']
      · rw [if_pos hd] at h
        cases h
        exact ⟨[], rfl⟩
      · rw [if_neg hd] at h
        obtain ⟨rest, e⟩ := ih _ _ _ _ h
        exact ⟨(Dir rpath, r.PrivateToken) :: rest, by rw [e]; simp⟩

/-- After a read that ended with a record, the cache holds that record under the raw
request path, every other key holds at most what it held before, and the response is
the rendering of the record. -/
theorem read_resolved {C : Type} (K : ARCCache C) (hK : K.Lawful) (urlParse : UrlParse)
    (gp : GetProject) (fuel : Nat) (cache : C) (r : Request) (out : Outcome C)
    (found : Project) (hsize : 0 < K.size cache) (hm : r.Method ≠ MethodDelete)
    (h : handler K urlParse gp fuel cache r = some out) (hp : out.proj = some found) :
    K.Peek out.cache r.Path = some found ∧
    out.w = sendResponse urlParse newRecorder (some found) ∧
    (∀ k v, k ≠ r.Path → K.Peek out.cache k = some v → K.Peek cache k = some v) := by
  rcases hg : K.Get cache r.Path with ⟨_ | v, c1⟩
  · rw [handler_miss_read K urlParse gp fuel cache c1 r hg hm] at h
    obtain ⟨hw, hc⟩ := walk_found K urlParse gp r newRecorder c1 fuel _ _ _ _ _ h hp
    have hc1 : c1 = (K.Get cache r.Path).2 := by rw [hg]
    refine ⟨?_, hw, ?_⟩
    · rw [hc]
      apply hK.add_same
      rw [hc1, hK.get_size]
      exact hsize
    · intro k v hk hv
      rw [hc] at hv
      have := hK.add_other _ _ _ _ _ hk hv
      rw [hc1, hK.get_peek] at this
      exact this
  · rw [handler_hit_read K urlParse gp fuel cache c1 r v hg hm] at h
    cases h
    cases hp
    have hc1 : c1 = (K.Get cache r.Path).2 := by rw [hg]
    have hv : K.Peek cache r.Path = some found := by
      rw [← hK.get_val, hg]
    refine ⟨?_, rfl, ?_⟩
    · show K.Peek c1 r.Path = some found
      rw [hc1, hK.get_peek]
      exact hv
    · intro k v _ hkv
      have : K.Peek c1 k = some v := hkv
      rw [hc1, hK.get_peek] at this
      exact this

/-- A read of a path the cache holds a record for is answered from the cache. -/
theorem read_cached {C : Type} (K : ARCCache C) (hK : K.Lawful) (urlParse : UrlParse)
    (gp : GetProject) (fuel : Nat) (cache : C) (r : Request) (v : Project)
    (hm : r.Method ≠ MethodDelete) (hv : K.Peek cache r.Path = some v) :
    handler K urlParse gp fuel cache r =
      some { w := sendResponse urlParse newRecorder (some v), cache := (K.Get cache r.Path).2,
             calls := [], firstError := none, proj := some v } := by
  have hg : K.Get cache r.Path = (some v, (K.Get cache r.Path).2) := by
    rw [← hv, ← hK.get_val]
  exact handler_hit_read K urlParse gp fuel cache _ r v hg hm

/-! ## The claims -/

/-- C2: for a read request on an uncached path where the lookup of every prefix fails,
the handler returns (given fuel above the number of slashes of the normalized path) and
the status of the response is fixed by the failure of the deepest prefix alone: the
status code of the backend when that failure is an error response (so 404 for a project
that is not found), and 500 for any other error, whatever the shorter prefixes answer. -/
theorem failure_status_deepest {C : Type} (K : ARCCache C) (urlParse : UrlParse)
    (gp : GetProject) (fuel : Nat) (cache : C) (r : Request) (e1 : GitlabError)
    (hm : r.Method ≠ MethodDelete) (hmiss : (K.Get cache r.Path).1 = none)
    (hfuel : slashes (TrimLeft r.Path ['/']) < fuel)
    (hall : ∀ p ∈ prefixes (TrimLeft r.Path ['/']), ∃ e, gp r.PrivateToken p = .error e)
    (h1 : gp r.PrivateToken (TrimLeft r.Path ['/']) = .error e1) :
    ∃ out, handler K urlParse gp fuel cache r = some out ∧
      (∀ st code t, e1 = .ErrorResponse st code t → out.w.ResponseWriter.status = code) ∧
      (∀ st t, e1 = .ErrorResponse st 404 t → out.w.ResponseWriter.status = 404) ∧
      (∀ t, e1 = .other t → out.w.ResponseWriter.status = 500) := by
  rw [handler_miss_read K urlParse gp fuel cache _ r (get_miss K cache _ hmiss) hm]
  obtain ⟨out, elast, ho, _, _, hw, _⟩ := walk_all_fail K urlParse gp r newRecorder
    (K.Get cache r.Path).2 fuel (TrimLeft r.Path ['/']) none [] e1 (TrimLeft_head _) hfuel hall h1
  refine ⟨out, ho, ?_, ?_, ?_⟩
  · intro st code t he
    rw [hw, Option.getD_none, failure_wire_status, he]
  · intro st t he
    rw [hw, Option.getD_none, failure_wire_status, he]
  · intro t he
    rw [hw, Option.getD_none, failure_wire_status, he]

/-- C2, at the request `/a/b` against a backend that times out on `a/b` and answers 403
on `a`: the status is 500. -/
theorem failure_status_deepest_witness :
    ∃ out, handler fifoCache parseURL backendDown 2 emptyCache (getRequest "/a/b") = some out ∧
      (∀ st code t, GitlabError.other "dial tcp: i/o timeout".toList = .ErrorResponse st code t →
        out.w.ResponseWriter.status = code) ∧
      (∀ st t, GitlabError.other "dial tcp: i/o timeout".toList = .ErrorResponse st 404 t →
        out.w.ResponseWriter.status = 404) ∧
      (∀ t, GitlabError.other "dial tcp: i/o timeout".toList = .other t →
        out.w.ResponseWriter.status = 500) :=
  failure_status_deepest fifoCache parseURL backendDown 2 emptyCache
    (getRequest "/a/b") (.other "dial tcp: i/o timeout".toList) (by decide) (by decide)
    (by decide) (fun _ _ => ⟨_, rfl⟩) rfl

/-- C3, counterexample: the GET request `/nope` against a backend that answers not-found
gets status 404 and a body of two lines, the status text of the backend and the text of
the error; the body is not empty. -/
theorem failure_body_not_empty_counterexample :
    (handler fifoCache parseURL backendEmpty 1 emptyCache (getRequest "/nope")).map
        (fun out => (out.w.ResponseWriter.status,
          bodySent (getRequest "/nope").Method out.w.ResponseWriter)) =
      some (404, ("404 Not Found\n" ++
        "GET https://gitlab.com/api/v4/projects/nope: 404 \x7bmessage: 404 Project Not Found\x7d\n").toList) ∧
    (handler fifoCache parseURL backendEmpty 1 emptyCache (getRequest "/nope")).map
        (fun out => bodySent (getRequest "/nope").Method out.w.ResponseWriter) ≠ some [] := by
  decide

/-- C3, amended: for a read request on an uncached path where the lookup of every
prefix fails, the handler returns, and the body the server sends is empty for a HEAD
request and never empty for any other method in the following cases: when the failure
of the deepest prefix is an error response of the backend (a 404 included) whose status
code is a final one that allows a body (200 to 999, other than 204 and 304), the body
begins with the status text of that response and a newline; when it is any other error
the body is not empty, and if the path has one prefix only it is the text of that error
and a newline. -/
theorem failure_body_deepest {C : Type} (K : ARCCache C) (urlParse : UrlParse)
    (gp : GetProject) (fuel : Nat) (cache : C) (r : Request) (e1 : GitlabError)
    (hm : r.Method ≠ MethodDelete) (hmiss : (K.Get cache r.Path).1 = none)
    (hfuel : slashes (TrimLeft r.Path ['/']) < fuel)
    (hall : ∀ p ∈ prefixes (TrimLeft r.Path ['/']), ∃ e, gp r.PrivateToken p = .error e)
    (h1 : gp r.PrivateToken (TrimLeft r.Path ['/']) = .error e1) :
    ∃ out, handler K urlParse gp fuel cache r = some out ∧
      (r.Method = MethodHead → bodySent r.Method out.w.ResponseWriter = []) ∧
      (∀ st code t, e1 = .ErrorResponse st code t → r.Method ≠ MethodHead →
        200 ≤ code → code ≤ 999 → code ≠ 204 → code ≠ 304 →
        bodySent r.Method out.w.ResponseWriter ≠ [] ∧
        (st ++ ['\n']) <+: bodySent r.Method out.w.ResponseWriter) ∧
      (∀ t, e1 = .other t → r.Method ≠ MethodHead →
        bodySent r.Method out.w.ResponseWriter ≠ [] ∧
        (Dir (TrimLeft r.Path ['/']) = ['.'] →
          bodySent r.Method out.w.ResponseWriter = t ++ ['\n'])) := by
  rw [handler_miss_read K urlParse gp fuel cache _ r (get_miss K cache _ hmiss) hm]
  obtain ⟨out, elast, ho, _, hlast, hw, _⟩ := walk_all_fail K urlParse gp r newRecorder
    (K.Get cache r.Path).2 fuel (TrimLeft r.Path ['/']) none [] e1 (TrimLeft_head _) hfuel hall h1
  refine ⟨out, ho, ?_, ?_, ?_⟩
  · intro hh
    simp [bodySent, hh]
  · intro st code t he hh h200 _ h204 h304
    have hallow : bodyAllowedForStatus code = true := by
      unfold bodyAllowedForStatus
      rw [if_neg (by omega), if_neg h204, if_neg h304]
    have hb : out.w.ResponseWriter.body = st ++ ['\n'] ++ (elast.Error ++ ['\n']) := by
      rw [hw, Option.getD_none, failure_body, he]
      simp only [hallow, if_true]
    simp only [bodySent, hh, if_false, hb]
    exact ⟨by simp, ⟨_, rfl⟩⟩
  · intro t he hh
    have hb : out.w.ResponseWriter.body = elast.Error ++ ['\n'] := by
      rw [hw, Option.getD_none, failure_body, he]
    simp only [bodySent, hh, if_false, hb]
    refine ⟨by simp, ?_⟩
    intro hd
    rw [hlast hd, he]
    rfl

/-- C3 as amended, at the GET request `/a` against a backend that answers 403 on `a`. -/
theorem failure_body_deepest_witness :
    ∃ out, handler fifoCache parseURL backendDown 1 emptyCache (getRequest "/a") = some out ∧
      bodySent (getRequest "/a").Method out.w.ResponseWriter ≠ [] ∧
      ("403 Forbidden".toList ++ ['\n']) <+:
        bodySent (getRequest "/a").Method out.w.ResponseWriter := by
  obtain ⟨out, h1, _, h3, _⟩ := failure_body_deepest fifoCache parseURL backendDown 1
    emptyCache (getRequest "/a") _ (by decide) (by decide) (by decide)
    (fun _ _ => ⟨_, rfl⟩) rfl
  exact ⟨out, h1, h3 _ 403 _ rfl (by decide) (by decide) (by decide) (by decide) (by decide)⟩

/-- C4: the prefix walk terminates for every request and every backend.  With fuel
above the number of `/` of the normalized path the handler returns, having made at most
one backend call more than that number; the normalized path does not start with `/`,
and from a candidate that does not start with `/` the next one, `Dir`, does not start
with `/` either (so it is never `/`), is `.` when the candidate has no `/`, and has
strictly fewer `/` otherwise; a read of an uncached single-segment path whose lookup
fails makes exactly one call and renders that failure. -/
theorem prefix_walk_terminates {C : Type} (K : ARCCache C) (urlParse : UrlParse)
    (gp : GetProject) (fuel : Nat) (cache : C) (r : Request)
    (hfuel : slashes (TrimLeft r.Path ['/']) < fuel) :
    (∃ out, handler K urlParse gp fuel cache r = some out ∧
      out.calls.length ≤ 1 + slashes (TrimLeft r.Path ['/'])) ∧
    (TrimLeft r.Path ['/']).head? ≠ some '/' ∧
    (∀ p : Str, p.head? ≠ some '/' →
      (Dir p).head? ≠ some '/' ∧ Dir p ≠ ['/'] ∧
      ('/' ∉ p → Dir p = ['.']) ∧ ('/' ∈ p → slashes (Dir p) < slashes p)) ∧
    (∀ e, r.Method ≠ MethodDelete → (K.Get cache r.Path).1 = none →
      '/' ∉ TrimLeft r.Path ['/'] → gp r.PrivateToken (TrimLeft r.Path ['/']) = .error e →
      ∃ out, handler K urlParse gp fuel cache r = some out ∧
        out.calls = [(TrimLeft r.Path ['/'], r.PrivateToken)] ∧ out.proj = none ∧
        out.firstError = some e ∧
        out.w = Error (writeErrorResponse newRecorder e) e.Error 500) := by
  refine ⟨?_, TrimLeft_head _, ?_, ?_⟩
  · by_cases hm : r.Method = MethodDelete
    · rcases hg : K.Get cache r.Path with ⟨_ | v, c1⟩
      · rw [handler_miss_delete K urlParse gp fuel cache c1 r hg hm]
        exact ⟨_, rfl, by simp⟩
      · rw [handler_hit_delete K urlParse gp fuel cache c1 r v hg hm]
        exact ⟨_, rfl, by simp⟩
    · rcases hg : K.Get cache r.Path with ⟨_ | v, c1⟩
      · rw [handler_miss_read K urlParse gp fuel cache c1 r hg hm]
        obtain ⟨out, ho, hl⟩ := walk_terminates K urlParse gp r newRecorder c1 fuel
          (TrimLeft r.Path ['/']) none [] (TrimLeft_head _) hfuel
        refine ⟨out, ho, ?_⟩
        simp only [List.length_nil] at hl
        omega
      · rw [handler_hit_read K urlParse gp fuel cache c1 r v hg hm]
        exact ⟨_, rfl, by simp⟩
  · intro p hp
    refine ⟨Dir_head hp, ?_, fun h => Dir_noslash h, fun h => Dir_slashes_lt hp h⟩
    intro h
    have := Dir_head hp
    rw [h] at this
    simp at this
  · intro e hm hmiss hs h1
    rw [handler_miss_read K urlParse gp fuel cache _ r (get_miss K cache _ hmiss) hm]
    obtain ⟨n, rfl⟩ : ∃ n, fuel = n + 1 := ⟨fuel - 1, by omega⟩
    rw [walk_error _ _ _ _ _ _ _ _ _ _ _ h1, if_pos (Dir_noslash hs)]
    exact ⟨_, rfl, rfl, rfl, rfl, rfl⟩

/-- C4, at the request `//a/./b/../c/` against a backend that fails on every path. -/
theorem prefix_walk_terminates_witness :
    (∃ out, handler fifoCache parseURL backendDown 6 emptyCache (getRequest "//a/./b/../c/")
        = some out ∧
      out.calls.length ≤ 1 + slashes (TrimLeft (getRequest "//a/./b/../c/").Path ['/'])) ∧
    (TrimLeft (getRequest "//a/./b/../c/").Path ['/']).head? ≠ some '/' ∧
    (∀ p : Str, p.head? ≠ some '/' →
      (Dir p).head? ≠ some '/' ∧ Dir p ≠ ['/'] ∧
      ('/' ∉ p → Dir p = ['.']) ∧ ('/' ∈ p → slashes (Dir p) < slashes p)) ∧
    (∀ e, (getRequest "//a/./b/../c/").Method ≠ MethodDelete →
      (fifoCache.Get emptyCache (getRequest "//a/./b/../c/").Path).1 = none →
      '/' ∉ TrimLeft (getRequest "//a/./b/../c/").Path ['/'] →
      backendDown (getRequest "//a/./b/../c/").PrivateToken
        (TrimLeft (getRequest "//a/./b/../c/").Path ['/']) = .error e →
      ∃ out, handler fifoCache parseURL backendDown 6 emptyCache (getRequest "//a/./b/../c/")
          = some out ∧
        out.calls = [(TrimLeft (getRequest "//a/./b/../c/").Path ['/'],
          (getRequest "//a/./b/../c/").PrivateToken)] ∧ out.proj = none ∧
        out.firstError = some e ∧
        out.w = Error (writeErrorResponse newRecorder e) e.Error 500) :=
  prefix_walk_terminates fifoCache parseURL backendDown 6 emptyCache
    (getRequest "//a/./b/../c/") (by decide)

/-- C1, counterexample: the request `/a/b/c` against a backend that knows `a/b` only,
with a clone URL that does not parse, is answered with status 500, not 200; and the HEAD
request `/foo/bar/baz` against a backend that knows `foo/bar` is answered with status
200 and no body, so no record is rendered to the caller. -/
theorem walk_renders_known_counterexample :
    (handler fifoCache parseURL backendBadURL 2 emptyCache (getRequest "/a/b/c")).map
        (fun out => (out.proj, out.w.ResponseWriter.status,
          out.calls.map (fun c => c.1))) =
      some (some badRecord, 500, ["a/b/c".toList, "a/b".toList]) ∧
    (handler fifoCache parseURL backendFooBar 2 emptyCache
        { Method := "HEAD".toList, Path := "/foo/bar/baz".toList, PrivateToken := [] }).map
        (fun out => (out.proj, out.w.ResponseWriter.status,
          bodySent "HEAD".toList out.w.ResponseWriter)) =
      some (some fooBar, 200, []) := by
  decide

/-- C1, amended: for a read request on an uncached path whose normalized path is
`s1/.../sn` with plain segments, if the lookup fails for `s1/.../sj` for every `j > k`
and returns a record for `s1/.../sk`, then (given fuel above `n - k`) the handler returns
having queried exactly `s1/.../sn`, ..., `s1/.../sk` in this order and no shorter
prefix, hands the record of `s1/.../sk` to `sendResponse` and caches it under the request
path; when the clone URL of the record parses, the response has status 200 and the
server sends the payload of that record as body, and when it does not, status 500 and
the text of the parse error; to a HEAD request the server sends the same status and no
body. -/
theorem walk_renders_known {C : Type} (K : ARCCache C) (urlParse : UrlParse)
    (gp : GetProject) (fuel : Nat) (cache : C) (r : Request) (segs : List Str) (k : Nat)
    (found : Project) (hm : r.Method ≠ MethodDelete) (hmiss : (K.Get cache r.Path).1 = none)
    (hpath : TrimLeft r.Path ['/'] = joinPath segs) (hplain : ∀ s ∈ segs, Plain s)
    (hk1 : 1 ≤ k) (hkn : k ≤ segs.length)
    (hfail : ∀ j, k < j → j ≤ segs.length →
      ∃ e, gp r.PrivateToken (joinPath (segs.take j)) = .error e)
    (hok : gp r.PrivateToken (joinPath (segs.take k)) = .ok found)
    (hfuel : segs.length - k < fuel) :
    ∃ out, handler K urlParse gp fuel cache r = some out ∧
      out.proj = some found ∧
      out.w = sendResponse urlParse newRecorder (some found) ∧
      out.cache = K.Add (K.Get cache r.Path).2 r.Path found ∧
      out.calls = (prefixesDown segs k (segs.length - k)).map (fun p => (p, r.PrivateToken)) ∧
      (∀ j, j < k → ∀ tok, (joinPath (segs.take j), tok) ∉ out.calls) ∧
      (∀ u, urlParse found.HTTPURLToRepo = .ok u →
        out.w.ResponseWriter.status = 200 ∧
        bodySent r.Method out.w.ResponseWriter =
          if r.Method = MethodHead then []
          else Sprintf payloadFormat
            [u.Host, found.PathWithNamespace, found.HTTPURLToRepo, found.WebURL]) ∧
      (∀ msg, urlParse found.HTTPURLToRepo = .error msg →
        out.w.ResponseWriter.status = 500 ∧
        bodySent r.Method out.w.ResponseWriter =
          if r.Method = MethodHead then [] else msg ++ ['\n']) := by
  rw [handler_miss_read K urlParse gp fuel cache _ r (get_miss K cache _ hmiss) hm, hpath]
  have hfull : segs = segs.take (k + (segs.length - k)) := by
    rw [List.take_of_length_le (by omega)]
  obtain ⟨out, ho, h1, h2, h3, h4⟩ := walk_segments K urlParse gp r newRecorder
    (K.Get cache r.Path).2 segs k found hplain hk1 hfail hok (segs.length - k) fuel none []
    (by omega) hfuel
  rw [← hfull] at ho
  refine ⟨out, ho, h1, h2, h3, by simpa using h4, ?_, ?_, ?_⟩
  · intro j hj tok hmem
    rw [h4] at hmem
    simp only [List.nil_append, List.mem_map, Prod.mk.injEq] at hmem
    obtain ⟨p, hp, hpe, _⟩ := hmem
    obtain ⟨i, hi, e⟩ := mem_prefixesDown hp
    exact joinPath_take_ne hplain (show j < k + i by omega) (by omega) (by rw [← hpe, e])
  · intro u hu
    rw [h2, sendResponse_ok urlParse found u hu]
    exact ⟨rfl, rfl⟩
  · intro msg hmsg
    rw [h2, sendResponse_parse_error urlParse found msg hmsg]
    exact ⟨rfl, rfl⟩

/-- C1 as amended, at the GET request `/foo/bar/baz` against a backend that knows
`foo/bar`. -/
theorem walk_renders_known_witness :
    ∃ out, handler fifoCache parseURL backendFooBar 2 emptyCache (getRequest "/foo/bar/baz")
        = some out ∧
      out.proj = some fooBar ∧
      out.w = sendResponse parseURL newRecorder (some fooBar) ∧
      out.cache = fifoCache.Add (fifoCache.Get emptyCache (getRequest "/foo/bar/baz").Path).2
        (getRequest "/foo/bar/baz").Path fooBar ∧
      out.calls = (prefixesDown ["foo".toList, "bar".toList, "baz".toList] 2
        (["foo".toList, "bar".toList, "baz".toList].length - 2)).map
          (fun p => (p, (getRequest "/foo/bar/baz").PrivateToken)) ∧
      (∀ j, j < 2 → ∀ tok,
        (joinPath (["foo".toList, "bar".toList, "baz".toList].take j), tok) ∉ out.calls) ∧
      (∀ u, parseURL fooBar.HTTPURLToRepo = .ok u →
        out.w.ResponseWriter.status = 200 ∧
        bodySent (getRequest "/foo/bar/baz").Method out.w.ResponseWriter =
          if (getRequest "/foo/bar/baz").Method = MethodHead then []
          else Sprintf payloadFormat
            [u.Host, fooBar.PathWithNamespace, fooBar.HTTPURLToRepo, fooBar.WebURL]) ∧
      (∀ msg, parseURL fooBar.HTTPURLToRepo = .error msg →
        out.w.ResponseWriter.status = 500 ∧
        bodySent (getRequest "/foo/bar/baz").Method out.w.ResponseWriter =
          if (getRequest "/foo/bar/baz").Method = MethodHead then [] else msg ++ ['\n']) :=
  walk_renders_known fifoCache parseURL backendFooBar 2 emptyCache
    (getRequest "/foo/bar/baz") ["foo".toList, "bar".toList, "baz".toList] 2 fooBar
    (by decide) (by decide) (by decide) (by decide) (by decide) (by decide)
    (fun j h1 h2 => by
      have h3 : j = 3 := by
        simp only [List.length_cons, List.length_nil] at h2
        omega
      subst h3
      exact ⟨_, rfl⟩)
    rfl (by decide)

set_option maxRecDepth 100000 in
/-- C7: for a record whose clone URL parses, `sendResponse` answers with status 200 and
the payload in which the go-import content is `host/pathWithNamespace git repoURL` and
the go-source content is
`host/pathWithNamespace _ webURL/tree/master{/dir} webURL/tree/master{/dir}/{file}#L{line}`,
the host being the one of the parsed clone URL; the markup around the two contents is
the one of the format string of the source. -/
theorem success_payload (urlParse : UrlParse) (proj : Project) (u : URL)
    (h : urlParse proj.HTTPURLToRepo = .ok u) :
    (sendResponse urlParse newRecorder (some proj)).ResponseWriter.status = 200 ∧
    (sendResponse urlParse newRecorder (some proj)).ResponseWriter.body =
      "<html><head>\n\t<meta name=\"go-import\" content=\"".toList ++
        (u.Host ++ "/".toList ++ proj.PathWithNamespace ++ " git ".toList ++
          proj.HTTPURLToRepo) ++
      "\" />\n\t<meta name=\"go-source\" content=\"".toList ++
        (u.Host ++ "/".toList ++ proj.PathWithNamespace ++ " _ ".toList ++
          proj.WebURL ++ "/tree/master\x7b/dir\x7d ".toList ++
          proj.WebURL ++ "/tree/master\x7b/dir\x7d/\x7bfile\x7d#L\x7bline\x7d".toList) ++
      "\" />\n</head></html>\n".toList := by
  rw [sendResponse_ok urlParse proj u h]
  refine ⟨rfl, ?_⟩
  show Sprintf payloadFormat _ = _
  simp only [List.append_assoc]
  rfl

/-- C7, at the record of `foo/bar`, whose clone URL has the host `gitlab.com`. -/
theorem success_payload_witness :
    (sendResponse parseURL newRecorder (some fooBar)).ResponseWriter.status = 200 ∧
    (sendResponse parseURL newRecorder (some fooBar)).ResponseWriter.body =
      "<html><head>\n\t<meta name=\"go-import\" content=\"".toList ++
        ((URL.mk "gitlab.com".toList).Host ++ "/".toList ++ fooBar.PathWithNamespace ++
          " git ".toList ++ fooBar.HTTPURLToRepo) ++
      "\" />\n\t<meta name=\"go-source\" content=\"".toList ++
        ((URL.mk "gitlab.com".toList).Host ++ "/".toList ++ fooBar.PathWithNamespace ++
          " _ ".toList ++
          fooBar.WebURL ++ "/tree/master\x7b/dir\x7d ".toList ++
          fooBar.WebURL ++ "/tree/master\x7b/dir\x7d/\x7bfile\x7d#L\x7bline\x7d".toList) ++
      "\" />\n</head></html>\n".toList :=
  success_payload parseURL fooBar (URL.mk "gitlab.com".toList) rfl

/-- C5: on a cache of size at least 1, after a read request that ended with a record
(found by the walk or in the cache), a read request for the same path that follows
immediately, whatever its token and whatever the backend then answers, returns without a
backend call, with that same record and the same response. -/
theorem cached_read_repeats {C : Type} (K : ARCCache C) (hK : K.Lawful) (urlParse : UrlParse)
    (gp1 gp2 : GetProject) (fuel1 fuel2 : Nat) (cache : C) (r1 r2 : Request)
    (out1 : Outcome C) (found : Project) (hsize : 0 < K.size cache)
    (hm1 : r1.Method ≠ MethodDelete) (hm2 : r2.Method ≠ MethodDelete)
    (hpath : r2.Path = r1.Path)
    (h1 : handler K urlParse gp1 fuel1 cache r1 = some out1) (hp : out1.proj = some found) :
    ∃ out2, handler K urlParse gp2 fuel2 out1.cache r2 = some out2 ∧
      out2.calls = [] ∧ out2.proj = some found ∧ out2.w = out1.w := by
  obtain ⟨hpeek, hw, _⟩ := read_resolved K hK urlParse gp1 fuel1 cache r1 out1 found hsize hm1 h1 hp
  rw [← hpath] at hpeek
  rw [read_cached K hK urlParse gp2 fuel2 out1.cache r2 found hm2 hpeek]
  exact ⟨_, rfl, rfl, rfl, hw.symm⟩

/-- C5, at two reads of `/foo/bar/baz`, the second with a token and against a backend
that has lost every project. -/
theorem cached_read_repeats_witness :
    ∃ out2, handler fifoCache parseURL backendEmpty 0
        (fifoCache.Add emptyCache "/foo/bar/baz".toList fooBar)
        { Method := "GET".toList, Path := "/foo/bar/baz".toList,
          PrivateToken := "secret".toList } = some out2 ∧
      out2.calls = [] ∧ out2.proj = some fooBar ∧
      out2.w = sendResponse parseURL newRecorder (some fooBar) :=
  cached_read_repeats fifoCache fifoCache_lawful parseURL backendFooBar backendEmpty 2 0
    emptyCache (getRequest "/foo/bar/baz")
    { Method := "GET".toList, Path := "/foo/bar/baz".toList, PrivateToken := "secret".toList }
    { w := sendResponse parseURL newRecorder (some fooBar),
      cache := fifoCache.Add emptyCache "/foo/bar/baz".toList fooBar,
      calls := [("foo/bar/baz".toList, []), ("foo/bar".toList, [])],
      firstError := some (notFound "foo/bar/baz".toList), proj := some fooBar }
    fooBar (by decide) (by decide) (by decide) rfl rfl rfl

/-- C6: a DELETE request returns without a backend call.  When the cache holds a record
for the request path, the response has status 200 and the body `OK` (the line that
`Fprintln` writes), the cache no longer holds the path and holds for every other key what
it held before, and a read of the path that follows takes the miss branch: it is the walk
from the normalized path, which (given fuel above the number of slashes) returns after
calling the backend first for the normalized path.  When the cache holds nothing for the
path, the response has status 404 and every key holds what it held before. -/
theorem delete_invalidates {C : Type} (K : ARCCache C) (hK : K.Lawful) (urlParse : UrlParse)
    (gp : GetProject) (fuel : Nat) (cache : C) (r : Request) (hm : r.Method = MethodDelete) :
    ∃ out, handler K urlParse gp fuel cache r = some out ∧ out.calls = [] ∧
      (∀ v, K.Peek cache r.Path = some v →
        out.w.ResponseWriter.status = 200 ∧ out.w.ResponseWriter.body = "OK\n".toList ∧
        K.Peek out.cache r.Path = none ∧
        (∀ k, k ≠ r.Path → K.Peek out.cache k = K.Peek cache k) ∧
        (∀ (gp2 : GetProject) (fuel2 : Nat) (r2 : Request), r2.Path = r.Path →
          r2.Method ≠ MethodDelete →
          handler K urlParse gp2 fuel2 out.cache r2 =
            walk K urlParse gp2 r2 newRecorder (K.Get out.cache r2.Path).2 fuel2
              (TrimLeft r2.Path ['/']) none [] ∧
          (slashes (TrimLeft r2.Path ['/']) < fuel2 →
            ∃ out2 rest, handler K urlParse gp2 fuel2 out.cache r2 = some out2 ∧
              out2.calls = (TrimLeft r2.Path ['/'], r2.PrivateToken) :: rest))) ∧
      (K.Peek cache r.Path = none →
        out.w.ResponseWriter.status = 404 ∧
        out.w.ResponseWriter.body = "404 page not found\n".toList ∧
        (∀ k, K.Peek out.cache k = K.Peek cache k)) := by
  rcases hg : K.Get cache r.Path with ⟨_ | v, c1⟩
  · have hc1 : c1 = (K.Get cache r.Path).2 := by rw [hg]
    have hnone : K.Peek cache r.Path = none := by rw [← hK.get_val, hg]
    rw [handler_miss_delete K urlParse gp fuel cache c1 r hg hm]
    refine ⟨_, rfl, rfl, ?_, ?_⟩
    · intro v hv
      rw [hnone] at hv
      cases hv
    · intro _
      refine ⟨rfl, rfl, ?_⟩
      intro k
      show K.Peek c1 k = K.Peek cache k
      rw [hc1, hK.get_peek]
  · have hc1 : c1 = (K.Get cache r.Path).2 := by rw [hg]
    have hsome : K.Peek cache r.Path = some v := by rw [← hK.get_val, hg]
    rw [handler_hit_delete K urlParse gp fuel cache c1 r v hg hm]
    refine ⟨_, rfl, rfl, ?_, ?_⟩
    · intro _ _
      refine ⟨rfl, rfl, hK.remove_same _ _, ?_, ?_⟩
      · intro k hk
        show K.Peek (K.Remove c1 r.Path) k = K.Peek cache k
        rw [hK.remove_other _ _ _ hk, hc1, hK.get_peek]
      · intro gp2 fuel2 r2 hp hm2
        have hmiss : (K.Get (K.Remove c1 r.Path) r2.Path).1 = none := by
          rw [hK.get_val, hp]
          exact hK.remove_same _ _
        have hw := handler_miss_read K urlParse gp2 fuel2 (K.Remove c1 r.Path) _ r2
          (get_miss K _ _ hmiss) hm2
        refine ⟨hw, ?_⟩
        intro hf
        obtain ⟨out2, ho, _⟩ := walk_terminates K urlParse gp2 r2 newRecorder
          (K.Get (K.Remove c1 r.Path) r2.Path).2 fuel2 (TrimLeft r2.Path ['/']) none []
          (TrimLeft_head _) hf
        obtain ⟨rest, hrest⟩ := walk_first_call K urlParse gp2 r2 newRecorder _ fuel2 _ _ _ _ ho
        exact ⟨out2, rest, hw.trans ho, by simpa using hrest⟩
    · intro hn
      rw [hsome] at hn
      cases hn

/-- C6, at a DELETE of `/foo/bar` on a cache that holds it. -/
theorem delete_invalidates_witness :
    ∃ out, handler fifoCache parseURL backendFooBar 0
        (fifoCache.Add emptyCache "/foo/bar".toList fooBar)
        { Method := "DELETE".toList, Path := "/foo/bar".toList, PrivateToken := [] }
          = some out ∧ out.calls = [] ∧
      out.w.ResponseWriter.status = 200 ∧ out.w.ResponseWriter.body = "OK\n".toList ∧
      fifoCache.Peek out.cache "/foo/bar".toList = none := by
  obtain ⟨out, h1, h2, h3, _⟩ := delete_invalidates fifoCache fifoCache_lawful parseURL
    backendFooBar 0 (fifoCache.Add emptyCache "/foo/bar".toList fooBar)
    { Method := "DELETE".toList, Path := "/foo/bar".toList, PrivateToken := [] } rfl
  obtain ⟨h4, h5, h6, _⟩ := h3 fooBar (by decide)
  exact ⟨out, h1, h2, h4, h5, h6⟩

/-- C10: when the cache holds a record for a path, two read requests for it that differ
in the token only (an absent token being the empty one) get the same response, the
rendering of the held record, leave the same cache and make no backend call, whatever
the backend would answer to either token. -/
theorem cache_hit_ignores_token {C : Type} (K : ARCCache C) (urlParse : UrlParse)
    (gp1 gp2 : GetProject) (fuel1 fuel2 : Nat) (cache : C) (r1 r2 : Request) (v : Project)
    (hcached : (K.Get cache r1.Path).1 = some v) (hmeth : r2.Method = r1.Method)
    (hpath : r2.Path = r1.Path) (hm : r1.Method ≠ MethodDelete) :
    ∃ out1 out2, handler K urlParse gp1 fuel1 cache r1 = some out1 ∧
      handler K urlParse gp2 fuel2 cache r2 = some out2 ∧
      out1.w = out2.w ∧ out1.w = sendResponse urlParse newRecorder (some v) ∧
      out1.cache = out2.cache ∧ out1.calls = [] ∧ out2.calls = [] ∧
      out1.proj = some v ∧ out2.proj = some v := by
  have hg : K.Get cache r1.Path = (some v, (K.Get cache r1.Path).2) := by rw [← hcached]
  have hg2 : K.Get cache r2.Path = (some v, (K.Get cache r1.Path).2) := by rw [hpath]; exact hg
  rw [handler_hit_read K urlParse gp1 fuel1 cache _ r1 v hg hm,
    handler_hit_read K urlParse gp2 fuel2 cache _ r2 v hg2 (by rw [hmeth]; exact hm)]
  exact ⟨_, _, rfl, rfl, rfl, rfl, rfl, rfl, rfl, rfl, rfl⟩

/-- C10, at a cached `/foo/bar` read without token and with the token `secret`. -/
theorem cache_hit_ignores_token_witness :
    ∃ out1 out2, handler fifoCache parseURL backendEmpty 0
        (fifoCache.Add emptyCache "/foo/bar".toList fooBar) (getRequest "/foo/bar")
          = some out1 ∧
      handler fifoCache parseURL backendFooBar 0
        (fifoCache.Add emptyCache "/foo/bar".toList fooBar)
        { Method := "GET".toList, Path := "/foo/bar".toList, PrivateToken := "secret".toList }
          = some out2 ∧
      out1.w = out2.w ∧ out1.w = sendResponse parseURL newRecorder (some fooBar) ∧
      out1.cache = out2.cache ∧ out1.calls = [] ∧ out2.calls = [] ∧
      out1.proj = some fooBar ∧ out2.proj = some fooBar :=
  cache_hit_ignores_token fifoCache parseURL backendEmpty backendFooBar 0 0
    (fifoCache.Add emptyCache "/foo/bar".toList fooBar) (getRequest "/foo/bar")
    { Method := "GET".toList, Path := "/foo/bar".toList, PrivateToken := "secret".toList }
    fooBar (by decide) rfl rfl (by decide)

/-- C9: with `GG_CACHE_SIZE=100` the cache size `envInt` returns is the default 512,
not 100, and with `GG_CACHE_SIZE=abc` it is 0, not the default. -/
theorem envInt_inverted_test :
    envInt (envCacheSize "100") "GG_CACHE_SIZE".toList 512 = 512 ∧
    envInt (envCacheSize "abc") "GG_CACHE_SIZE".toList 512 = 0 ∧
    Atoi "100".toList = (100, none) ∧ Atoi "abc".toList = (0, some .ErrSyntax) := by
  decide

/-- Whenever the variable holds text that `Atoi` accepts, `envInt` returns the default. -/
theorem envInt_parsed_gives_default (env : Env) (name : Str) (d v : Int)
    (h : Atoi (Getenv env name) = (v, none)) : envInt env name d = d := by
  simp [envInt, h]

/-- C8, counterexample: after a successful read of `/foo/bar`, a read of `//foo/bar`
calls the backend for `foo/bar`, and the cache then holds two entries, under the keys
`//foo/bar` and `/foo/bar`, for the one normalized path. -/
theorem cache_key_normalized_counterexample :
    ((handler fifoCache parseURL backendFooBar 1 emptyCache (getRequest "/foo/bar")).bind
      (fun out1 =>
        (handler fifoCache parseURL backendFooBar 1 out1.cache (getRequest "//foo/bar")).map
          (fun out2 => (out1.proj, out2.calls, out2.cache.entries.map (fun e => e.1))))) =
      some (some fooBar, [("foo/bar".toList, [])],
        ["//foo/bar".toList, "/foo/bar".toList]) ∧
    TrimLeft "/foo/bar".toList ['/'] = TrimLeft "//foo/bar".toList ['/'] := by
  decide

/-- C8, amended: the cache is keyed by the raw request path.  On a cache of size at least
1, after a read request that ended with a record, the cache holds the record under the
raw path of the request and no other key has gained or changed an entry; a read with the
same raw path is then answered from the cache without a backend call; a read with
another raw path that held no entry before, even one with the same normalized path,
takes the miss branch and walks the backend. -/
theorem cache_key_raw_path {C : Type} (K : ARCCache C) (hK : K.Lawful) (urlParse : UrlParse)
    (gp1 gp2 : GetProject) (fuel1 fuel2 : Nat) (cache : C) (r1 r2 : Request)
    (out1 : Outcome C) (found : Project) (hsize : 0 < K.size cache)
    (hm1 : r1.Method ≠ MethodDelete) (hm2 : r2.Method ≠ MethodDelete)
    (h1 : handler K urlParse gp1 fuel1 cache r1 = some out1) (hp : out1.proj = some found) :
    K.Peek out1.cache r1.Path = some found ∧
    (∀ k v, k ≠ r1.Path → K.Peek out1.cache k = some v → K.Peek cache k = some v) ∧
    (r2.Path = r1.Path →
      ∃ out2, handler K urlParse gp2 fuel2 out1.cache r2 = some out2 ∧
        out2.calls = [] ∧ out2.proj = some found) ∧
    (r2.Path ≠ r1.Path → K.Peek cache r2.Path = none →
      handler K urlParse gp2 fuel2 out1.cache r2 =
        walk K urlParse gp2 r2 newRecorder (K.Get out1.cache r2.Path).2 fuel2
          (TrimLeft r2.Path ['/']) none [] ∧
      (slashes (TrimLeft r2.Path ['/']) < fuel2 →
        ∃ out2 rest, handler K urlParse gp2 fuel2 out1.cache r2 = some out2 ∧
          out2.calls = (TrimLeft r2.Path ['/'], r2.PrivateToken) :: rest)) := by
  obtain ⟨hpeek, _, hother⟩ :=
    read_resolved K hK urlParse gp1 fuel1 cache r1 out1 found hsize hm1 h1 hp
  refine ⟨hpeek, hother, ?_, ?_⟩
  · intro hpath
    rw [← hpath] at hpeek
    rw [read_cached K hK urlParse gp2 fuel2 out1.cache r2 found hm2 hpeek]
    exact ⟨_, rfl, rfl, rfl⟩
  · intro hne hnone
    have hmiss : (K.Get out1.cache r2.Path).1 = none := by
      rw [hK.get_val]
      cases hv : K.Peek out1.cache r2.Path with
      | none => rfl
      | some v =>
        have := hother _ _ hne hv
        rw [hnone] at this
        cases this
    have hw := handler_miss_read K urlParse gp2 fuel2 out1.cache _ r2
      (get_miss K _ _ hmiss) hm2
    refine ⟨hw, ?_⟩
    intro hf
    obtain ⟨out2, ho, _⟩ := walk_terminates K urlParse gp2 r2 newRecorder
      (K.Get out1.cache r2.Path).2 fuel2 (TrimLeft r2.Path ['/']) none []
      (TrimLeft_head _) hf
    obtain ⟨rest, hrest⟩ := walk_first_call K urlParse gp2 r2 newRecorder _ fuel2 _ _ _ _ ho
    exact ⟨out2, rest, hw.trans ho, by simpa using hrest⟩

/-- C8 as amended, at a read of `/foo/bar` followed by a read of `//foo/bar`. -/
theorem cache_key_raw_path_witness :
    fifoCache.Peek (fifoCache.Add emptyCache "/foo/bar".toList fooBar) "/foo/bar".toList
      = some fooBar ∧
    ∃ out2 rest, handler fifoCache parseURL backendFooBar 2
        (fifoCache.Add emptyCache "/foo/bar".toList fooBar) (getRequest "//foo/bar")
          = some out2 ∧
      out2.calls = ("foo/bar".toList, []) :: rest := by
  obtain ⟨h1, _, _, h4⟩ := cache_key_raw_path fifoCache fifoCache_lawful parseURL
    backendFooBar backendFooBar 1 2 emptyCache (getRequest "/foo/bar")
    (getRequest "//foo/bar")
    { w := sendResponse parseURL newRecorder (some fooBar),
      cache := fifoCache.Add emptyCache "/foo/bar".toList fooBar,
      calls := [("foo/bar".toList, [])], firstError := none, proj := some fooBar }
    fooBar (by decide) (by decide) (by decide) rfl rfl
  exact ⟨h1, (h4 (by decide) (by decide)).2 (by decide)⟩

/-! ## Evaluations -/

/-- The routines `Dir`, `Clean` and `TrimLeft` on sample paths, as the Go routines answer. -/
theorem path_samples :
    Dir "a/b/c".toList = "a/b".toList ∧ Dir "a".toList = ".".toList ∧
    Dir "a//b/".toList = "a/b".toList ∧ Dir "a/../../b".toList = "..".toList ∧
    Dir "/a".toList = "/".toList ∧ Dir "a/./b/c".toList = "a/b".toList ∧
    Dir "../../x".toList = "../..".toList ∧ Dir [] = ".".toList ∧
    Clean "/a/b/../../../c/".toList = "/c".toList ∧
    Clean "abc/def/../ghi/..".toList = "abc".toList ∧
    TrimLeft "//foo/bar".toList "/".toList = "foo/bar".toList := by
  decide

/-- The request `/foo/bar/baz` against a backend that has `foo/bar` only: two calls,
status 200; the request `/nope` against a backend without projects: one call, status 404
on the wire and 500 in the log line. -/
theorem handler_samples :
    ((handler fifoCache parseURL backendFooBar 10 emptyCache (getRequest "/foo/bar/baz")).map
      (fun o => (o.w.ResponseWriter.status, o.calls.length))) = some (200, 2) ∧
    ((handler fifoCache parseURL backendEmpty 10 emptyCache (getRequest "/nope")).map
      (fun o => (o.w.ResponseWriter.status, o.w.getStatus, o.calls.length)))
        = some (404, 500, 1) ∧
    ((handler fifoCache parseURL backendDown 6 emptyCache (getRequest "//a/./b/../c/")).map
      (fun o => o.calls.map (fun c => c.1)))
        = some ["a/./b/../c/".toList, "a/c".toList, "a".toList] := by
  decide

end Gogot
